import Mathlib

/-!  Verification of the CSP propagation core of this repository
     (src/propagators.py and src/propagators1.py).

     The underlying Variable / Constraint / CSP primitives live in
     cspbase.py, which is not among the sources; they are modelled from the
     specification (spec.md sections 3, 4.1 and 6).  A variable is identified
     by its index in the registration order of the problem; values are
     integers.  The mutable search state (current domains and assignments) is
     threaded explicitly, so every propagator takes and returns a `State`.  -/

namespace CSPCore

/-- Modelled from the spec: a constraint (cspbase.Constraint, not in src)
    holds an ordered scope, given as the list of variable identifiers, and an
    explicit table of satisfying value tuples aligned positionally with the
    scope. -/
structure Constraint where
  scope : List Nat
  tuples : List (List Int)
deriving DecidableEq, Repr

/-- Modelled from the spec: the problem registry (cspbase.CSP, not in src)
    owns the variables and the constraints, both in registration order.
    Constraints are referred to by their index in `cons`, which models the
    object identity Python uses for queue membership tests. -/
structure CSP where
  vars : List Nat
  cons : List Constraint

/-- Modelled from the spec: the mutable part of a problem, namely every
    variable her current domain and optional committed assignment
    (cspbase.Variable, not in src). -/
structure State where
  dom : Nat → List Int
  assigned : Nat → Option Int

/-- Modelled from the spec: `cur_domain()` returns the current domain of a
    variable. -/
def cur_domain (st : State) (v : Nat) : List Int := st.dom v

/-- Modelled from the spec: `cur_domain_size()` is the cardinality of the
    current domain; size 0 signals a domain wipeout. -/
def cur_domain_size (st : State) (v : Nat) : Nat := (st.dom v).length

/-- Modelled from the spec: `prune_value(v)` removes a value from the
    current domain of a variable. -/
def prune_value (st : State) (v : Nat) (x : Int) : State :=
  { st with dom := fun w => if w = v then (st.dom w).filter (fun y => y != x) else st.dom w }

/-- Modelled from the spec: `get_assigned_value()` returns the committed
    value, if any. -/
def get_assigned_value (st : State) (v : Nat) : Option Int := st.assigned v

/-- Modelled from the spec: a value counts as current for a variable when
    the variable is unassigned and the value is in its current domain, or the
    variable is assigned and the value is exactly the assigned one. -/
def in_cur_dom (st : State) (v : Nat) (x : Int) : Bool :=
  match st.assigned v with
  | some a => x == a
  | none => decide (x ∈ st.dom v)

/-- Modelled from the spec: `has_support(var, val)` holds when some
    satisfying tuple assigns `val` to the position of `var` and assigns, to
    every other scope variable, a value that counts as current for it. -/
def has_support (st : State) (c : Constraint) (v : Nat) (x : Int) : Bool :=
  c.tuples.any fun t =>
    t.length == c.scope.length &&
      (c.scope.zip t).all fun wy => if wy.1 = v then wy.2 == x else in_cur_dom st wy.1 wy.2

/-- Modelled from the spec: `check(value_tuple)` holds exactly when the
    tuple, aligned to scope order, is in the satisfying tuples. -/
def check (c : Constraint) (vals : List Int) : Bool := decide (vals ∈ c.tuples)

/-- The out-of-range default used by `get_cons`; a Python call with an
    out-of-range index would raise instead, and never happens here because
    every index handed around comes from the registry. -/
def emptyConstraint : Constraint := ⟨[], []⟩

/-- The constraint registered at index `i`. -/
def get_cons (csp : CSP) (i : Nat) : Constraint := csp.cons.getD i emptyConstraint

/-- Modelled from the spec: `get_all_cons()` lists every constraint of the
    problem in registration order (here: every constraint index). -/
def get_all_cons (csp : CSP) : List Nat := List.range csp.cons.length

/-- Modelled from the spec: `get_cons_with_var(v)` lists the constraints
    whose scope contains `v`, in registration order. -/
def get_cons_with_var (csp : CSP) (v : Nat) : List Nat :=
  (List.range csp.cons.length).filter fun i => decide (v ∈ (get_cons csp i).scope)

/-- Modelled from the spec: `get_unasgn_vars()` lists the scope variables
    without a committed value. -/
def get_unasgn_vars (st : State) (c : Constraint) : List Nat :=
  c.scope.filter fun v => (st.assigned v).isNone

/-- Modelled from the spec: `get_n_unasgn()` counts the scope variables
    without a committed value. -/
def get_n_unasgn (st : State) (c : Constraint) : Nat := (get_unasgn_vars st c).length

/-- Modelled from the spec: `get_all_vars()` lists the variables in
    registration order. -/
def get_all_vars (csp : CSP) : List Nat := csp.vars

/-- Every variable occurring in some scope of the problem. -/
def scope_vars (csp : CSP) : List Nat := (csp.cons.map Constraint.scope).flatten.dedup

/-- The total size of the current domains of all scope variables. -/
def dom_sum (csp : CSP) (st : State) : Nat :=
  ((scope_vars csp).map fun v => (st.dom v).length).sum

/-- Well-formedness of a state: the current domain of every scope variable
    is duplicate free, as the spec requires of a domain (a set of values). -/
def WFdom (csp : CSP) (st : State) : Prop :=
  ∀ v ∈ scope_vars csp, (st.dom v).Nodup

instance (csp : CSP) (st : State) : Decidable (WFdom csp st) := by
  unfold WFdom; infer_instance

/-- The GAC re-enqueue step shared by both source files (and prescribed by
    the spec): append every constraint whose scope contains `v` that is not
    already present in the queue. -/
def gac_enqueue (csp : CSP) (v : Nat) (q : List Nat) : List Nat :=
  (get_cons_with_var csp v).foldl (fun acc j => if j ∈ acc then acc else acc ++ [j]) q

/-! ## The propagators of src/propagators.py -/

namespace Propagators

/-- The constraint scan of `prop_BT` (lines 81 to 88 of propagators.py):
    every fully instantiated constraint is checked on the tuple of the
    assigned values of its scope, in scope order; the first failing
    constraint aborts with failure.  All scope variables are assigned in the
    checked branch, so the `getD` default is never consulted. -/
def btCheckCons (csp : CSP) (st : State) : List Nat → Bool
  | [] => true
  | i :: rest =>
    let c := get_cons csp i
    if get_n_unasgn st c = 0 then
      if check c (c.scope.map fun w => (get_assigned_value st w).getD 0) then
        btCheckCons csp st rest
      else false
    else btCheckCons csp st rest

/-- `prop_BT` of propagators.py: plain backtracking propagation. -/
def prop_BT (csp : CSP) (newVar : Option Nat) (st : State) :
    Bool × List (Nat × Int) × State :=
  match newVar with
  | none => (true, [], st)
  | some v => (btCheckCons csp st (get_cons_with_var csp v), [], st)

/-- In `prop_FC` and `prop_GAC` of propagators.py the wipe-out test reads
    `var.cur_domain_size == 0`: the call parentheses are missing, so the
    bound method object itself is compared with the integer 0, which in
    Python is always false. -/
def cur_domain_size_method_eq_zero : Bool := false

/-- The value loop of `prop_FC` (lines 112 to 120 of propagators.py) over
    the snapshot of the current domain of the single unassigned variable
    `v` of constraint `c`. -/
def fcVals (c : Constraint) (v : Nat) :
    List Int → State → List (Nat × Int) →
      Except (List (Nat × Int) × State) (List (Nat × Int) × State)
  | [], st, pruned => .ok (pruned, st)
  | val :: rest, st, pruned =>
    if has_support st c v val = false ∧ (v, val) ∉ pruned then
      let pruned1 := pruned ++ [(v, val)]
      let st1 := prune_value st v val
      if cur_domain_size_method_eq_zero = true then .error (pruned1, st1)
      else fcVals c v rest st1 pruned1
    else fcVals c v rest st pruned

/-- The constraint scan of `prop_FC` (lines 105 to 120 of propagators.py):
    process every scanned constraint that has exactly one unassigned scope
    variable. -/
def fcCons (csp : CSP) : List Nat → State → List (Nat × Int) →
    Bool × List (Nat × Int) × State
  | [], st, pruned => (true, pruned, st)
  | i :: rest, st, pruned =>
    let c := get_cons csp i
    if get_n_unasgn st c = 1 then
      let v := (get_unasgn_vars st c).headD 0
      match fcVals c v (cur_domain st v) st pruned with
      | .error (pruned1, st1) => (false, pruned1, st1)
      | .ok (pruned1, st1) => fcCons csp rest st1 pruned1
    else fcCons csp rest st pruned

/-- `prop_FC` of propagators.py: forward checking. -/
def prop_FC (csp : CSP) (newVar : Option Nat) (st : State) :
    Bool × List (Nat × Int) × State :=
  match newVar with
  | none => fcCons csp (get_all_cons csp) st []
  | some v => fcCons csp (get_cons_with_var csp v) st []

/-- The value loop of `prop_GAC` (lines 144 to 157 of propagators.py) over
    the snapshot of the current domain of scope variable `v` of the popped
    constraint `c`.  After a prune the constraints touching `v` are appended
    to the queue unless already present. -/
def gacVals (csp : CSP) (c : Constraint) (v : Nat) :
    List Int → State → List Nat → List (Nat × Int) →
      Except (List (Nat × Int) × State) (State × List Nat × List (Nat × Int))
  | [], st, q, pruned => .ok (st, q, pruned)
  | val :: rest, st, q, pruned =>
    if has_support st c v val = false ∧ (v, val) ∉ pruned then
      let pruned1 := pruned ++ [(v, val)]
      let st1 := prune_value st v val
      if cur_domain_size_method_eq_zero = true then .error (pruned1, st1)
      else gacVals csp c v rest st1 (gac_enqueue csp v q) pruned1
    else gacVals csp c v rest st q pruned

/-- The scope loop of `prop_GAC` (line 141 of propagators.py). -/
def gacScope (csp : CSP) (c : Constraint) :
    List Nat → State → List Nat → List (Nat × Int) →
      Except (List (Nat × Int) × State) (State × List Nat × List (Nat × Int))
  | [], st, q, pruned => .ok (st, q, pruned)
  | v :: vs, st, q, pruned =>
    match gacVals csp c v (cur_domain st v) st q pruned with
    | .error e => .error e
    | .ok (st1, q1, pruned1) => gacScope csp c vs st1 q1 pruned1

/-- The while loop of `prop_GAC` (lines 138 to 159 of propagators.py),
    indexed by fuel; `gac_fuel` below is proved sufficient, so the fuel
    never runs out on a well-formed state. -/
def gacLoop (csp : CSP) : Nat → State → List Nat → List (Nat × Int) →
    Option (Bool × List (Nat × Int) × State)
  | 0, _, _, _ => none
  | _ + 1, st, [], pruned => some (true, pruned, st)
  | fuel + 1, st, i :: rest, pruned =>
    match gacScope csp (get_cons csp i) (get_cons csp i).scope st rest pruned with
    | .error (pruned1, st1) => some (false, pruned1, st1)
    | .ok (st1, q1, pruned1) => gacLoop csp fuel st1 q1 pruned1

end Propagators

/-- Fuel that dominates the number of iterations of the GAC while loop:
    every iteration either consumes a queue entry without touching any
    domain or shrinks the total domain size, and the queue, which is
    duplicate free, never holds more than `csp.cons.length` entries. -/
def gac_fuel (csp : CSP) (st : State) : Nat :=
  dom_sum csp st * (csp.cons.length + 1) + csp.cons.length + 1

namespace Propagators

/-- `prop_GAC` of propagators.py: generalized arc consistency. -/
def prop_GAC (csp : CSP) (newVar : Option Nat) (st : State) :
    Option (Bool × List (Nat × Int) × State) :=
  match newVar with
  | none => gacLoop csp (gac_fuel csp st) st (get_all_cons csp) []
  | some v => gacLoop csp (gac_fuel csp st) st (get_cons_with_var csp v) []

/-- `ord_mrv` of propagators.py: the minimum remaining values heuristic.
    The Python accumulator pair (smallest, ret_var) starts at (inf, None),
    so the first variable always replaces the initial accumulator, and
    afterwards `smallest` is exactly the current domain size of `ret_var`. -/
def ord_mrv (csp : CSP) (st : State) : Option Nat :=
  (get_all_vars csp).foldl
    (fun ret_var v =>
      match ret_var with
      | none => some v
      | some best =>
        if cur_domain_size st best > cur_domain_size st v then some v else ret_var)
    none

end Propagators

/-! ## The propagators of src/propagators1.py -/

namespace Propagators1

/-- The constraint scan of `prop_BT` (lines 57 to 64 of propagators1.py);
    the code is identical to the one of propagators.py. -/
def btCheckCons (csp : CSP) (st : State) : List Nat → Bool
  | [] => true
  | i :: rest =>
    let c := get_cons csp i
    if get_n_unasgn st c = 0 then
      if check c (c.scope.map fun w => (get_assigned_value st w).getD 0) then
        btCheckCons csp st rest
      else false
    else btCheckCons csp st rest

/-- `prop_BT` of propagators1.py. -/
def prop_BT (csp : CSP) (newVar : Option Nat) (st : State) :
    Bool × List (Nat × Int) × State :=
  match newVar with
  | none => (true, [], st)
  | some v => (btCheckCons csp st (get_cons_with_var csp v), [], st)

/-- The value loop of `prop_FC` (lines 85 to 94 of propagators1.py): on a
    value without support the pair is pruned and recorded unless already
    recorded, and then the wipe-out test `cur_domain_size() == 0` runs, this
    time with the method properly called. -/
def fcVals (c : Constraint) (v : Nat) :
    List Int → State → List (Nat × Int) →
      Except (List (Nat × Int) × State) (List (Nat × Int) × State)
  | [], st, prune => .ok (prune, st)
  | val :: rest, st, prune =>
    if has_support st c v val = false then
      let pr :=
        if (v, val) ∉ prune then (prune ++ [(v, val)], prune_value st v val)
        else (prune, st)
      if cur_domain_size pr.2 v = 0 then .error (pr.1, pr.2)
      else fcVals c v rest pr.2 pr.1
    else fcVals c v rest st prune

/-- The constraint scan of `prop_FC` (lines 81 to 94 of propagators1.py). -/
def fcCons (csp : CSP) : List Nat → State → List (Nat × Int) →
    Bool × List (Nat × Int) × State
  | [], st, prune => (true, prune, st)
  | i :: rest, st, prune =>
    let c := get_cons csp i
    if get_n_unasgn st c = 1 then
      let v := (get_unasgn_vars st c).headD 0
      match fcVals c v (cur_domain st v) st prune with
      | .error (prune1, st1) => (false, prune1, st1)
      | .ok (prune1, st1) => fcCons csp rest st1 prune1
    else fcCons csp rest st prune

/-- `prop_FC` of propagators1.py: forward checking. -/
def prop_FC (csp : CSP) (newVar : Option Nat) (st : State) :
    Bool × List (Nat × Int) × State :=
  match newVar with
  | none => fcCons csp (get_all_cons csp) st []
  | some v => fcCons csp (get_cons_with_var csp v) st []

/-- The value loop of `prop_GAC` (lines 119 to 133 of propagators1.py): on
    a value without support the pair is pruned and recorded unless already
    recorded; a genuine wipe-out test follows, and when the domain survives
    the constraints touching `v` are appended to the queue unless already
    present. -/
def gacVals (csp : CSP) (c : Constraint) (v : Nat) :
    List Int → State → List Nat → List (Nat × Int) →
      Except (List (Nat × Int) × State) (State × List Nat × List (Nat × Int))
  | [], st, q, prune => .ok (st, q, prune)
  | val :: rest, st, q, prune =>
    if has_support st c v val = false then
      let pr :=
        if (v, val) ∉ prune then (prune ++ [(v, val)], prune_value st v val)
        else (prune, st)
      if cur_domain_size pr.2 v = 0 then .error (pr.1, pr.2)
      else gacVals csp c v rest pr.2 (gac_enqueue csp v q) pr.1
    else gacVals csp c v rest st q prune

/-- The scope loop of `prop_GAC` (line 117 of propagators1.py). -/
def gacScope (csp : CSP) (c : Constraint) :
    List Nat → State → List Nat → List (Nat × Int) →
      Except (List (Nat × Int) × State) (State × List Nat × List (Nat × Int))
  | [], st, q, prune => .ok (st, q, prune)
  | v :: vs, st, q, prune =>
    match gacVals csp c v (cur_domain st v) st q prune with
    | .error e => .error e
    | .ok (st1, q1, prune1) => gacScope csp c vs st1 q1 prune1

/-- The while loop of `prop_GAC` (lines 113 to 135 of propagators1.py),
    indexed by fuel; `gac_fuel` is proved sufficient below. -/
def gacLoop (csp : CSP) : Nat → State → List Nat → List (Nat × Int) →
    Option (Bool × List (Nat × Int) × State)
  | 0, _, _, _ => none
  | _ + 1, st, [], prune => some (true, prune, st)
  | fuel + 1, st, i :: rest, prune =>
    match gacScope csp (get_cons csp i) (get_cons csp i).scope st rest prune with
    | .error (prune1, st1) => some (false, prune1, st1)
    | .ok (st1, q1, prune1) => gacLoop csp fuel st1 q1 prune1

/-- `prop_GAC` of propagators1.py: generalized arc consistency. -/
def prop_GAC (csp : CSP) (newVar : Option Nat) (st : State) :
    Option (Bool × List (Nat × Int) × State) :=
  match newVar with
  | none => gacLoop csp (gac_fuel csp st) st (get_all_cons csp) []
  | some v => gacLoop csp (gac_fuel csp st) st (get_cons_with_var csp v) []

/-- `ord_mrv` of propagators1.py; the code is identical to the one of
    propagators.py. -/
def ord_mrv (csp : CSP) (st : State) : Option Nat :=
  (get_all_vars csp).foldl
    (fun ret_var v =>
      match ret_var with
      | none => some v
      | some best =>
        if cur_domain_size st best > cur_domain_size st v then some v else ret_var)
    none

end Propagators1

/-! ## Basic lemmas about the primitives -/

theorem prune_value_assigned (st : State) (v : Nat) (x : Int) :
    (prune_value st v x).assigned = st.assigned := rfl

theorem prune_value_dom (st : State) (v : Nat) (x : Int) (w : Nat) :
    (prune_value st v x).dom w =
      if w = v then (st.dom w).filter (fun y => y != x) else st.dom w := rfl

/-- The pruning record invariant: the current state is the initial state
    with every recorded pair filtered away from the matching domain. -/
def Ext (st0 : State) (p : List (Nat × Int)) (st : State) : Prop :=
  st.assigned = st0.assigned ∧
    ∀ w, st.dom w = (st0.dom w).filter fun y => decide ((w, y) ∉ p)

theorem ext_refl (st0 : State) : Ext st0 [] st0 :=
  ⟨rfl, fun w => (List.filter_eq_self.mpr fun a _ => by simp).symm⟩

theorem ext_mem {st0 : State} {p : List (Nat × Int)} {st : State}
    (h : Ext st0 p st) (w : Nat) (x : Int) :
    x ∈ st.dom w ↔ x ∈ st0.dom w ∧ (w, x) ∉ p := by
  rw [h.2 w, List.mem_filter]
  simp

theorem ext_step {st0 : State} {p : List (Nat × Int)} {st : State}
    (h : Ext st0 p st) (v : Nat) (x : Int) :
    Ext st0 (p ++ [(v, x)]) (prune_value st v x) := by
  refine ⟨h.1, fun w => ?_⟩
  rw [prune_value_dom]
  by_cases hw : w = v
  · subst hw
    rw [if_pos rfl, h.2 w, List.filter_filter]
    apply List.filter_congr
    intro y _
    by_cases h1 : (w, y) ∈ p <;> by_cases h2 : y = x <;>
      simp [h1, h2, List.mem_append]
  · rw [if_neg hw, h.2 w]
    apply List.filter_congr
    intro y _
    by_cases h1 : (w, y) ∈ p <;> simp [h1, List.mem_append, hw]

theorem ext_nodup {st0 : State} {p : List (Nat × Int)} {st : State}
    (h : Ext st0 p st) (w : Nat) (hnd : (st0.dom w).Nodup) :
    (st.dom w).Nodup := by
  rw [h.2 w]; exact hnd.filter _

/-- A state order: same assignments, pointwise smaller current domains. -/
def StLE (s t : State) : Prop :=
  s.assigned = t.assigned ∧ ∀ w x, x ∈ s.dom w → x ∈ t.dom w

theorem in_cur_dom_mono {s t : State} (h : StLE s t) (w : Nat) (y : Int)
    (hx : in_cur_dom s w y = true) : in_cur_dom t w y = true := by
  unfold in_cur_dom at hx ⊢
  have hA' : t.assigned w = s.assigned w := by rw [h.1]
  rw [hA']
  cases hA : s.assigned w with
  | some a => rw [hA] at hx; exact hx
  | none =>
    rw [hA] at hx
    exact decide_eq_true (h.2 w y (of_decide_eq_true hx))

theorem has_support_mono {s t : State} (h : StLE s t) (c : Constraint)
    (v : Nat) (x : Int) (hs : has_support s c v x = true) :
    has_support t c v x = true := by
  unfold has_support at hs ⊢
  rw [List.any_eq_true] at hs ⊢
  obtain ⟨tp, htp, hok⟩ := hs
  refine ⟨tp, htp, ?_⟩
  rw [Bool.and_eq_true] at hok ⊢
  refine ⟨hok.1, ?_⟩
  rw [List.all_eq_true] at hok ⊢
  intro wy hwy
  have := hok.2 wy hwy
  by_cases hwv : wy.1 = v
  · simpa [hwv] using this
  · rw [if_neg hwv] at this ⊢
    exact in_cur_dom_mono h _ _ this

theorem in_cur_dom_congr {s t : State} (hA : t.assigned = s.assigned)
    (w : Nat) (hw : t.dom w = s.dom w) (y : Int) :
    in_cur_dom t w y = in_cur_dom s w y := by
  unfold in_cur_dom
  rw [hA, hw]

theorem list_all_congr {α : Type} {xs : List α} {f g : α → Bool}
    (hfg : ∀ u ∈ xs, f u = g u) : xs.all f = xs.all g := by
  induction xs with
  | nil => rfl
  | cons u us ihc =>
    have h1 : f u = g u := hfg u (List.mem_cons_self u us)
    have h2 := ihc fun w hw => hfg w (List.mem_cons_of_mem _ hw)
    simp only [List.all_cons, h1, h2]

theorem list_any_congr {α : Type} {xs : List α} {f g : α → Bool}
    (hfg : ∀ u ∈ xs, f u = g u) : xs.any f = xs.any g := by
  induction xs with
  | nil => rfl
  | cons u us ihc =>
    have h1 : f u = g u := hfg u (List.mem_cons_self u us)
    have h2 := ihc fun w hw => hfg w (List.mem_cons_of_mem _ hw)
    simp only [List.any_cons, h1, h2]

theorem has_support_congr {s t : State} (c : Constraint)
    (hA : t.assigned = s.assigned)
    (hD : ∀ w ∈ c.scope, t.dom w = s.dom w) (v : Nat) (x : Int) :
    has_support t c v x = has_support s c v x := by
  unfold has_support
  apply list_any_congr
  intro tp _
  congr 1
  apply list_all_congr
  intro wy hwy
  by_cases hwv : wy.1 = v
  · rw [if_pos hwv, if_pos hwv]
  · rw [if_neg hwv, if_neg hwv]
    exact in_cur_dom_congr hA wy.1 (hD wy.1 (List.of_mem_zip hwy).1) wy.2

theorem mem_get_cons_with_var {csp : CSP} {v : Nat} {i : Nat} :
    i ∈ get_cons_with_var csp v ↔ i < csp.cons.length ∧ v ∈ (get_cons csp i).scope := by
  unfold get_cons_with_var
  rw [List.mem_filter, List.mem_range]
  simp

theorem nodup_get_cons_with_var (csp : CSP) (v : Nat) :
    (get_cons_with_var csp v).Nodup :=
  (List.nodup_range _).filter _

theorem nodup_get_all_cons (csp : CSP) : (get_all_cons csp).Nodup :=
  List.nodup_range _

theorem mem_get_all_cons {csp : CSP} {i : Nat} :
    i ∈ get_all_cons csp ↔ i < csp.cons.length := List.mem_range

theorem scope_sub_scope_vars {csp : CSP} {i : Nat} (hi : i < csp.cons.length) :
    ∀ v ∈ (get_cons csp i).scope, v ∈ scope_vars csp := by
  intro v hv
  unfold scope_vars
  rw [List.mem_dedup, List.mem_flatten]
  refine ⟨(get_cons csp i).scope, ?_, hv⟩
  have : get_cons csp i = csp.cons[i] := List.getD_eq_getElem _ _ hi
  rw [this]
  exact List.mem_map_of_mem _ (List.getElem_mem hi)

/-! ## List helper lemmas -/

theorem sum_map_le_sum_map {l : List Nat} {f g : Nat → Nat}
    (h : ∀ v ∈ l, f v ≤ g v) : (l.map f).sum ≤ (l.map g).sum := by
  induction l with
  | nil => exact Nat.le_refl _
  | cons a t ih =>
    simp only [List.map_cons, List.sum_cons]
    have := h a (List.mem_cons_self a t)
    have := ih fun v hv => h v (List.mem_cons_of_mem a hv)
    omega

theorem sum_map_lt_sum_map {l : List Nat} {f g : Nat → Nat} {v : Nat}
    (hv : v ∈ l) (hlt : f v < g v) (h : ∀ w ∈ l, f w ≤ g w) :
    (l.map f).sum < (l.map g).sum := by
  induction l with
  | nil => cases hv
  | cons a t ih =>
    simp only [List.map_cons, List.sum_cons]
    rcases List.mem_cons.mp hv with rfl | hv'
    · have := sum_map_le_sum_map (fun w hw => h w (List.mem_cons_of_mem _ hw))
      omega
    · have := h a (List.mem_cons_self a t)
      have := ih hv' fun w hw => h w (List.mem_cons_of_mem _ hw)
      omega

theorem length_filter_lt {l : List Int} {a : Int} {p : Int → Bool}
    (ha : a ∈ l) (hp : p a = false) : (l.filter p).length < l.length := by
  induction l with
  | nil => cases ha
  | cons b t ih =>
    rcases List.mem_cons.mp ha with rfl | ha'
    · rw [List.filter_cons, hp]
      simp only [List.length_cons]
      exact Nat.lt_succ_of_le (List.length_filter_le _ _)
    · rw [List.filter_cons]
      cases hb : p b
      · simp only [cond_false, List.length_cons]
        exact Nat.lt_succ_of_lt (ih ha')
      · simp only [cond_true, List.length_cons]
        exact Nat.succ_lt_succ (ih ha')

theorem nodup_bounded_length {l : List Nat} {n : Nat}
    (hnd : l.Nodup) (hlt : ∀ x ∈ l, x < n) : l.length ≤ n := by
  have h := List.subperm_of_subset hnd
    (fun x hx => List.mem_range.mpr (hlt x hx) : l ⊆ List.range n)
  simpa using h.length_le

/-! ## Lemmas about the re-enqueue step -/

theorem enq_fold_mem_of_mem {L q : List Nat} {j : Nat} (hj : j ∈ q) :
    j ∈ L.foldl (fun acc j => if j ∈ acc then acc else acc ++ [j]) q := by
  induction L generalizing q with
  | nil => exact hj
  | cons a t ih =>
    simp only [List.foldl_cons]
    by_cases ha : a ∈ q
    · rw [if_pos ha]; exact ih hj
    · rw [if_neg ha]; exact ih (List.mem_append_left _ hj)

theorem enq_fold_mem_of_mem_list {L q : List Nat} {j : Nat} (hj : j ∈ L) :
    j ∈ L.foldl (fun acc j => if j ∈ acc then acc else acc ++ [j]) q := by
  induction L generalizing q with
  | nil => cases hj
  | cons a t ih =>
    simp only [List.foldl_cons]
    rcases List.mem_cons.mp hj with rfl | hj'
    · by_cases ha : j ∈ q
      · rw [if_pos ha]; exact enq_fold_mem_of_mem ha
      · rw [if_neg ha]
        exact enq_fold_mem_of_mem (List.mem_append_right _ (List.mem_singleton.mpr rfl))
    · by_cases ha : a ∈ q <;> [rw [if_pos ha]; rw [if_neg ha]] <;> exact ih hj'

theorem enq_fold_mem_cases {L q : List Nat} {j : Nat}
    (hj : j ∈ L.foldl (fun acc j => if j ∈ acc then acc else acc ++ [j]) q) :
    j ∈ q ∨ j ∈ L := by
  induction L generalizing q with
  | nil => exact Or.inl hj
  | cons a t ih =>
    simp only [List.foldl_cons] at hj
    by_cases ha : a ∈ q
    · rw [if_pos ha] at hj
      rcases ih hj with h | h
      · exact Or.inl h
      · exact Or.inr (List.mem_cons_of_mem a h)
    · rw [if_neg ha] at hj
      rcases ih hj with h | h
      · rcases List.mem_append.mp h with h' | h'
        · exact Or.inl h'
        · exact Or.inr (List.mem_cons.mpr (Or.inl (List.mem_singleton.mp h')))
      · exact Or.inr (List.mem_cons_of_mem a h)

theorem enq_fold_nodup {L q : List Nat} (hq : q.Nodup) :
    (L.foldl (fun acc j => if j ∈ acc then acc else acc ++ [j]) q).Nodup := by
  induction L generalizing q with
  | nil => exact hq
  | cons a t ih =>
    simp only [List.foldl_cons]
    by_cases ha : a ∈ q
    · rw [if_pos ha]; exact ih hq
    · rw [if_neg ha]
      refine ih ?_
      rw [List.nodup_append]
      exact ⟨hq, List.nodup_singleton a, by simpa using ha⟩

theorem gac_enqueue_mem_of_mem {csp : CSP} {v : Nat} {q : List Nat} {j : Nat}
    (hj : j ∈ q) : j ∈ gac_enqueue csp v q := enq_fold_mem_of_mem hj

theorem gac_enqueue_mem_of_cons_with {csp : CSP} {v : Nat} {q : List Nat} {j : Nat}
    (hj : j ∈ get_cons_with_var csp v) : j ∈ gac_enqueue csp v q :=
  enq_fold_mem_of_mem_list hj

theorem gac_enqueue_mem_cases {csp : CSP} {v : Nat} {q : List Nat} {j : Nat}
    (hj : j ∈ gac_enqueue csp v q) : j ∈ q ∨ j ∈ get_cons_with_var csp v :=
  enq_fold_mem_cases hj

theorem gac_enqueue_nodup {csp : CSP} {v : Nat} {q : List Nat}
    (hq : q.Nodup) : (gac_enqueue csp v q).Nodup := enq_fold_nodup hq

/-! ## Step lemmas: one unfolding of each value loop -/

theorem fcVals1_cons_sup {c : Constraint} {v : Nat} {val : Int} {rest : List Int}
    {st : State} {prune : List (Nat × Int)}
    (hsup : has_support st c v val = true) :
    Propagators1.fcVals c v (val :: rest) st prune =
      Propagators1.fcVals c v rest st prune := by
  rw [Propagators1.fcVals, if_neg (by simp [hsup])]

theorem fcVals1_cons_prune {c : Constraint} {v : Nat} {val : Int} {rest : List Int}
    {st : State} {prune : List (Nat × Int)}
    (hsup : has_support st c v val = false) (hmem : (v, val) ∉ prune) :
    Propagators1.fcVals c v (val :: rest) st prune =
      if cur_domain_size (prune_value st v val) v = 0 then
        .error (prune ++ [(v, val)], prune_value st v val)
      else Propagators1.fcVals c v rest (prune_value st v val) (prune ++ [(v, val)]) := by
  rw [Propagators1.fcVals, if_pos hsup, if_pos hmem]

theorem fcValsP_cons_prune {c : Constraint} {v : Nat} {val : Int} {rest : List Int}
    {st : State} {prune : List (Nat × Int)}
    (hsup : has_support st c v val = false) (hmem : (v, val) ∉ prune) :
    Propagators.fcVals c v (val :: rest) st prune =
      Propagators.fcVals c v rest (prune_value st v val) (prune ++ [(v, val)]) := by
  rw [Propagators.fcVals, if_pos ⟨hsup, hmem⟩,
    if_neg (by simp [Propagators.cur_domain_size_method_eq_zero])]

theorem fcValsP_cons_skip {c : Constraint} {v : Nat} {val : Int} {rest : List Int}
    {st : State} {prune : List (Nat × Int)}
    (h : ¬(has_support st c v val = false ∧ (v, val) ∉ prune)) :
    Propagators.fcVals c v (val :: rest) st prune =
      Propagators.fcVals c v rest st prune := by
  rw [Propagators.fcVals, if_neg h]

theorem gacVals1_cons_sup {csp : CSP} {c : Constraint} {v : Nat} {val : Int}
    {rest : List Int} {st : State} {q : List Nat} {prune : List (Nat × Int)}
    (hsup : has_support st c v val = true) :
    Propagators1.gacVals csp c v (val :: rest) st q prune =
      Propagators1.gacVals csp c v rest st q prune := by
  rw [Propagators1.gacVals, if_neg (by simp [hsup])]

theorem gacVals1_cons_prune {csp : CSP} {c : Constraint} {v : Nat} {val : Int}
    {rest : List Int} {st : State} {q : List Nat} {prune : List (Nat × Int)}
    (hsup : has_support st c v val = false) (hmem : (v, val) ∉ prune) :
    Propagators1.gacVals csp c v (val :: rest) st q prune =
      if cur_domain_size (prune_value st v val) v = 0 then
        .error (prune ++ [(v, val)], prune_value st v val)
      else Propagators1.gacVals csp c v rest (prune_value st v val)
        (gac_enqueue csp v q) (prune ++ [(v, val)]) := by
  rw [Propagators1.gacVals, if_pos hsup, if_pos hmem]

theorem gacValsP_cons_prune {csp : CSP} {c : Constraint} {v : Nat} {val : Int}
    {rest : List Int} {st : State} {q : List Nat} {prune : List (Nat × Int)}
    (hsup : has_support st c v val = false) (hmem : (v, val) ∉ prune) :
    Propagators.gacVals csp c v (val :: rest) st q prune =
      Propagators.gacVals csp c v rest (prune_value st v val)
        (gac_enqueue csp v q) (prune ++ [(v, val)]) := by
  rw [Propagators.gacVals, if_pos ⟨hsup, hmem⟩,
    if_neg (by simp [Propagators.cur_domain_size_method_eq_zero])]

theorem gacValsP_cons_skip {csp : CSP} {c : Constraint} {v : Nat} {val : Int}
    {rest : List Int} {st : State} {q : List Nat} {prune : List (Nat × Int)}
    (h : ¬(has_support st c v val = false ∧ (v, val) ∉ prune)) :
    Propagators.gacVals csp c v (val :: rest) st q prune =
      Propagators.gacVals csp c v rest st q prune := by
  rw [Propagators.gacVals, if_neg h]

/-! ## Domain size lemmas -/

theorem dom_sum_prune_le (csp : CSP) (st : State) (v : Nat) (x : Int) :
    dom_sum csp (prune_value st v x) ≤ dom_sum csp st := by
  apply sum_map_le_sum_map
  intro u _
  rw [prune_value_dom]
  by_cases h : u = v
  · rw [if_pos h]; exact List.length_filter_le _ _
  · rw [if_neg h]

theorem dom_sum_prune_lt {csp : CSP} {st : State} {v : Nat} {x : Int}
    (hv : v ∈ scope_vars csp) (hx : x ∈ st.dom v) :
    dom_sum csp (prune_value st v x) < dom_sum csp st := by
  apply sum_map_lt_sum_map hv
  · rw [prune_value_dom, if_pos rfl]
    exact length_filter_lt hx (by simp)
  · intro w _
    rw [prune_value_dom]
    by_cases h : w = v
    · rw [if_pos h]; exact List.length_filter_le _ _
    · rw [if_neg h]

/-! ## Invariant bundles for the GAC value and scope loops -/

/-- What a run of a GAC value loop over variable `v` guarantees when it
    finishes normally: the recorded pairs grew by a batch `d` of fresh pairs
    for `v`, the state is the initial state filtered by the record, the
    queue only grew, nothing changed when the batch is empty (in which case
    every value of the snapshot had support), and on a nonempty batch the
    total domain size shrank and every constraint touching `v` is queued. -/
def GacValsOk (csp : CSP) (st0 : State) (c : Constraint) (v : Nat) (vals : List Int)
    (st : State) (q : List Nat) (prune : List (Nat × Int))
    (st1 : State) (q1 : List Nat) (prune1 : List (Nat × Int)) : Prop :=
  ∃ d, prune1 = prune ++ d ∧ Ext st0 prune1 st1 ∧
    (∀ pr ∈ d, pr.1 = v ∧ pr.2 ∈ st0.dom v ∧ pr ∉ prune) ∧
    (prune.Nodup → prune1.Nodup) ∧
    dom_sum csp st1 ≤ dom_sum csp st ∧
    (d = [] → st1 = st ∧ q1 = q ∧ ∀ x ∈ vals, has_support st c v x = true) ∧
    (d ≠ [] → (v ∈ scope_vars csp → dom_sum csp st1 < dom_sum csp st) ∧
      ∀ j ∈ get_cons_with_var csp v, j ∈ q1) ∧
    (∀ j ∈ q, j ∈ q1) ∧ (q.Nodup → q1.Nodup) ∧
    (∀ j ∈ q1, j ∈ q ∨ j ∈ get_cons_with_var csp v)

/-- What a run of a GAC value loop guarantees when it aborts on a domain
    wipe out. -/
def GacValsErr (csp : CSP) (st0 : State) (v : Nat)
    (st : State) (prune : List (Nat × Int))
    (st1 : State) (prune1 : List (Nat × Int)) : Prop :=
  ∃ d, prune1 = prune ++ d ∧ Ext st0 prune1 st1 ∧
    (∀ pr ∈ d, pr.1 = v ∧ pr.2 ∈ st0.dom v ∧ pr ∉ prune) ∧
    (prune.Nodup → prune1.Nodup) ∧
    dom_sum csp st1 ≤ dom_sum csp st

theorem gacVals1_master {csp : CSP} {c : Constraint} {v : Nat} {st0 : State} :
    ∀ (vals : List Int) (st : State) (q : List Nat) (prune : List (Nat × Int)),
      Ext st0 prune st → (∀ x ∈ vals, x ∈ st.dom v) → vals.Nodup →
      (∀ prune1 st1,
        Propagators1.gacVals csp c v vals st q prune = .error (prune1, st1) →
        GacValsErr csp st0 v st prune st1 prune1) ∧
      (∀ st1 q1 prune1,
        Propagators1.gacVals csp c v vals st q prune = .ok (st1, q1, prune1) →
        GacValsOk csp st0 c v vals st q prune st1 q1 prune1) := by
  intro vals
  induction vals with
  | nil =>
    intro st q prune hext _ _
    constructor
    · intro prune1 st1 h
      simp [Propagators1.gacVals] at h
    · intro st1 q1 prune1 h
      simp only [Propagators1.gacVals, Except.ok.injEq, Prod.mk.injEq] at h
      obtain ⟨h1, h2, h3⟩ := h
      subst h1; subst h2; subst h3
      exact ⟨[], by simp, hext, by simp, fun h => h, Nat.le_refl _,
        fun _ => ⟨rfl, rfl, by simp⟩, fun h => absurd rfl h,
        fun j hj => hj, fun h => h, fun j hj => Or.inl hj⟩
  | cons val rest ih =>
    intro st q prune hext hvals hnd
    have hvmem : val ∈ st.dom v := hvals val (List.mem_cons_self _ _)
    have hmem0 := (ext_mem hext v val).mp hvmem
    have hnotp : (v, val) ∉ prune := hmem0.2
    cases hS : has_support st c v val with
    | true =>
      rw [gacVals1_cons_sup hS]
      obtain ⟨ihE, ihO⟩ := ih st q prune hext
        (fun x hx => hvals x (List.mem_cons_of_mem _ hx)) (List.nodup_cons.mp hnd).2
      refine ⟨ihE, ?_⟩
      intro st1 q1 prune1 h
      obtain ⟨d, hd, hext1, hpairs, hndp, hds, hempty, hne, hqmono, hqnd, hqcases⟩ :=
        ihO st1 q1 prune1 h
      refine ⟨d, hd, hext1, hpairs, hndp, hds, ?_, hne, hqmono, hqnd, hqcases⟩
      intro hdnil
      obtain ⟨h1, h2, h3⟩ := hempty hdnil
      refine ⟨h1, h2, fun x hx => ?_⟩
      rcases List.mem_cons.mp hx with rfl | hx'
      · exact hS
      · exact h3 x hx'
    | false =>
      rw [gacVals1_cons_prune hS hnotp]
      by_cases hz : cur_domain_size (prune_value st v val) v = 0
      · rw [if_pos hz]
        constructor
        · intro prune1 st1 h
          simp only [Except.error.injEq, Prod.mk.injEq] at h
          obtain ⟨h1, h2⟩ := h
          subst h1; subst h2
          refine ⟨[(v, val)], rfl, ext_step hext v val, ?_, ?_, dom_sum_prune_le _ _ _ _⟩
          · intro pr hpr
            rw [List.mem_singleton.mp hpr]
            exact ⟨rfl, hmem0.1, hnotp⟩
          · intro hpn
            rw [List.nodup_append]
            exact ⟨hpn, List.nodup_singleton _, by simpa using hnotp⟩
        · intro st1 q1 prune1 h
          cases h
      · rw [if_neg hz]
        have hext' : Ext st0 (prune ++ [(v, val)]) (prune_value st v val) :=
          ext_step hext v val
        have hval_nin : val ∉ rest := (List.nodup_cons.mp hnd).1
        have hvals' : ∀ x ∈ rest, x ∈ (prune_value st v val).dom v := by
          intro x hx
          rw [prune_value_dom, if_pos rfl]
          refine List.mem_filter.mpr ⟨hvals x (List.mem_cons_of_mem _ hx), ?_⟩
          have : x ≠ val := fun heq => hval_nin (heq ▸ hx)
          simpa using this
        obtain ⟨ihE, ihO⟩ := ih (prune_value st v val) (gac_enqueue csp v q)
          (prune ++ [(v, val)]) hext' hvals' (List.nodup_cons.mp hnd).2
        have hnodup_step : prune.Nodup → (prune ++ [(v, val)]).Nodup := by
          intro hpn
          rw [List.nodup_append]
          exact ⟨hpn, List.nodup_singleton _, by simpa using hnotp⟩
        constructor
        · intro prune1 st1 h
          obtain ⟨d', hd', hext1, hpairs', hndp', hds'⟩ := ihE prune1 st1 h
          refine ⟨(v, val) :: d', by rw [hd']; simp, hext1, ?_,
            fun hpn => hndp' (hnodup_step hpn),
            Nat.le_trans hds' (dom_sum_prune_le _ _ _ _)⟩
          intro pr hpr
          rcases List.mem_cons.mp hpr with rfl | hpr'
          · exact ⟨rfl, hmem0.1, hnotp⟩
          · obtain ⟨h1, h2, h3⟩ := hpairs' pr hpr'
            exact ⟨h1, h2, fun hmem => h3 (List.mem_append_left _ hmem)⟩
        · intro st1 q1 prune1 h
          obtain ⟨d', hd', hext1, hpairs', hndp', hds', _, _, hqmono', hqnd', hqcases'⟩ :=
            ihO st1 q1 prune1 h
          refine ⟨(v, val) :: d', by rw [hd']; simp, hext1, ?_,
            fun hpn => hndp' (hnodup_step hpn),
            Nat.le_trans hds' (dom_sum_prune_le _ _ _ _), ?_, ?_, ?_, ?_, ?_⟩
          · intro pr hpr
            rcases List.mem_cons.mp hpr with rfl | hpr'
            · exact ⟨rfl, hmem0.1, hnotp⟩
            · obtain ⟨h1, h2, h3⟩ := hpairs' pr hpr'
              exact ⟨h1, h2, fun hmem => h3 (List.mem_append_left _ hmem)⟩
          · intro hdnil
            exact absurd hdnil (List.cons_ne_nil _ _)
          · intro _
            refine ⟨fun hv => Nat.lt_of_le_of_lt hds' (dom_sum_prune_lt hv hvmem), ?_⟩
            intro j hj
            exact hqmono' j (gac_enqueue_mem_of_cons_with hj)
          · intro j hj
            exact hqmono' j (gac_enqueue_mem_of_mem hj)
          · intro hqn
            exact hqnd' (gac_enqueue_nodup hqn)
          · intro j hj
            rcases hqcases' j hj with h' | h'
            · exact gac_enqueue_mem_cases h'
            · exact Or.inr h'

theorem gacValsP_never_err {csp : CSP} {c : Constraint} {v : Nat} :
    ∀ (vals : List Int) (st : State) (q : List Nat) (prune : List (Nat × Int))
      (prune1 : List (Nat × Int)) (st1 : State),
      Propagators.gacVals csp c v vals st q prune ≠ .error (prune1, st1) := by
  intro vals
  induction vals with
  | nil =>
    intro st q prune prune1 st1 h
    simp [Propagators.gacVals] at h
  | cons val rest ih =>
    intro st q prune prune1 st1 h
    by_cases hg : has_support st c v val = false ∧ (v, val) ∉ prune
    · rw [gacValsP_cons_prune hg.1 hg.2] at h
      exact ih _ _ _ _ _ h
    · rw [gacValsP_cons_skip hg] at h
      exact ih _ _ _ _ _ h

theorem gacValsP_master {csp : CSP} {c : Constraint} {v : Nat} {st0 : State} :
    ∀ (vals : List Int) (st : State) (q : List Nat) (prune : List (Nat × Int)),
      Ext st0 prune st → (∀ x ∈ vals, x ∈ st.dom v) → vals.Nodup →
      ∀ st1 q1 prune1,
        Propagators.gacVals csp c v vals st q prune = .ok (st1, q1, prune1) →
        GacValsOk csp st0 c v vals st q prune st1 q1 prune1 := by
  intro vals
  induction vals with
  | nil =>
    intro st q prune hext _ _ st1 q1 prune1 h
    simp only [Propagators.gacVals, Except.ok.injEq, Prod.mk.injEq] at h
    obtain ⟨h1, h2, h3⟩ := h
    subst h1; subst h2; subst h3
    exact ⟨[], by simp, hext, by simp, fun h => h, Nat.le_refl _,
      fun _ => ⟨rfl, rfl, by simp⟩, fun h => absurd rfl h,
      fun j hj => hj, fun h => h, fun j hj => Or.inl hj⟩
  | cons val rest ih =>
    intro st q prune hext hvals hnd st1 q1 prune1 h
    have hvmem : val ∈ st.dom v := hvals val (List.mem_cons_self _ _)
    have hmem0 := (ext_mem hext v val).mp hvmem
    have hnotp : (v, val) ∉ prune := hmem0.2
    cases hS : has_support st c v val with
    | true =>
      rw [gacValsP_cons_skip (by simp [hS])] at h
      obtain ⟨d, hd, hext1, hpairs, hndp, hds, hempty, hne, hqmono, hqnd, hqcases⟩ :=
        ih st q prune hext
          (fun x hx => hvals x (List.mem_cons_of_mem _ hx)) (List.nodup_cons.mp hnd).2
          st1 q1 prune1 h
      refine ⟨d, hd, hext1, hpairs, hndp, hds, ?_, hne, hqmono, hqnd, hqcases⟩
      intro hdnil
      obtain ⟨h1, h2, h3⟩ := hempty hdnil
      refine ⟨h1, h2, fun x hx => ?_⟩
      rcases List.mem_cons.mp hx with rfl | hx'
      · exact hS
      · exact h3 x hx'
    | false =>
      rw [gacValsP_cons_prune hS hnotp] at h
      have hext' : Ext st0 (prune ++ [(v, val)]) (prune_value st v val) :=
        ext_step hext v val
      have hval_nin : val ∉ rest := (List.nodup_cons.mp hnd).1
      have hvals' : ∀ x ∈ rest, x ∈ (prune_value st v val).dom v := by
        intro x hx
        rw [prune_value_dom, if_pos rfl]
        refine List.mem_filter.mpr ⟨hvals x (List.mem_cons_of_mem _ hx), ?_⟩
        have : x ≠ val := fun heq => hval_nin (heq ▸ hx)
        simpa using this
      have hnodup_step : prune.Nodup → (prune ++ [(v, val)]).Nodup := by
        intro hpn
        rw [List.nodup_append]
        exact ⟨hpn, List.nodup_singleton _, by simpa using hnotp⟩
      obtain ⟨d', hd', hext1, hpairs', hndp', hds', _, _, hqmono', hqnd', hqcases'⟩ :=
        ih (prune_value st v val) (gac_enqueue csp v q) (prune ++ [(v, val)]) hext'
          hvals' (List.nodup_cons.mp hnd).2 st1 q1 prune1 h
      refine ⟨(v, val) :: d', by rw [hd']; simp, hext1, ?_,
        fun hpn => hndp' (hnodup_step hpn),
        Nat.le_trans hds' (dom_sum_prune_le _ _ _ _), ?_, ?_, ?_, ?_, ?_⟩
      · intro pr hpr
        rcases List.mem_cons.mp hpr with rfl | hpr'
        · exact ⟨rfl, hmem0.1, hnotp⟩
        · obtain ⟨h1, h2, h3⟩ := hpairs' pr hpr'
          exact ⟨h1, h2, fun hmem => h3 (List.mem_append_left _ hmem)⟩
      · intro hdnil
        exact absurd hdnil (List.cons_ne_nil _ _)
      · intro _
        refine ⟨fun hv => Nat.lt_of_le_of_lt hds' (dom_sum_prune_lt hv hvmem), ?_⟩
        intro j hj
        exact hqmono' j (gac_enqueue_mem_of_cons_with hj)
      · intro j hj
        exact hqmono' j (gac_enqueue_mem_of_mem hj)
      · intro hqn
        exact hqnd' (gac_enqueue_nodup hqn)
      · intro j hj
        rcases hqcases' j hj with h' | h'
        · exact gac_enqueue_mem_cases h'
        · exact Or.inr h'

theorem ext_append_dom {st0 : State} {p d : List (Nat × Int)} {st st1 : State}
    (h : Ext st0 p st) (h1 : Ext st0 (p ++ d) st1) (u : Nat) :
    st1.dom u = (st.dom u).filter fun y => decide ((u, y) ∉ d) := by
  rw [h1.2 u, h.2 u, List.filter_filter]
  apply List.filter_congr
  intro y _
  by_cases h1 : (u, y) ∈ p <;> by_cases h2 : (u, y) ∈ d <;>
    simp [h1, h2, List.mem_append]

/-- What a run of a GAC scope loop over the variables `vs` of constraint
    `c` guarantees when it finishes normally. -/
def GacScopeOk (csp : CSP) (st0 : State) (c : Constraint) (vs : List Nat)
    (st : State) (q : List Nat) (prune : List (Nat × Int))
    (st1 : State) (q1 : List Nat) (prune1 : List (Nat × Int)) : Prop :=
  ∃ d, prune1 = prune ++ d ∧ Ext st0 prune1 st1 ∧
    (∀ pr ∈ d, pr.1 ∈ vs ∧ pr.2 ∈ st0.dom pr.1 ∧ pr ∉ prune) ∧
    (prune.Nodup → prune1.Nodup) ∧
    dom_sum csp st1 ≤ dom_sum csp st ∧
    (d = [] → st1 = st ∧ q1 = q ∧
      ∀ v ∈ vs, ∀ x ∈ st.dom v, has_support st c v x = true) ∧
    (d ≠ [] → ((∀ v ∈ vs, v ∈ scope_vars csp) → dom_sum csp st1 < dom_sum csp st) ∧
      ∀ pr ∈ d, ∀ j ∈ get_cons_with_var csp pr.1, j ∈ q1) ∧
    (∀ j ∈ q, j ∈ q1) ∧ (q.Nodup → q1.Nodup) ∧
    (∀ j ∈ q1, j ∈ q ∨ ∃ u ∈ vs, j ∈ get_cons_with_var csp u)

/-- What a run of a GAC scope loop guarantees when it aborts on a domain
    wipe out. -/
def GacScopeErr (csp : CSP) (st0 : State) (vs : List Nat)
    (st : State) (prune : List (Nat × Int))
    (st1 : State) (prune1 : List (Nat × Int)) : Prop :=
  ∃ d, prune1 = prune ++ d ∧ Ext st0 prune1 st1 ∧
    (∀ pr ∈ d, pr.1 ∈ vs ∧ pr.2 ∈ st0.dom pr.1 ∧ pr ∉ prune) ∧
    (prune.Nodup → prune1.Nodup) ∧
    dom_sum csp st1 ≤ dom_sum csp st

theorem gacScope1_master {csp : CSP} {c : Constraint} {st0 : State}
    (hwf0 : WFdom csp st0) :
    ∀ (vs : List Nat) (st : State) (q : List Nat) (prune : List (Nat × Int)),
      Ext st0 prune st → (∀ v ∈ vs, v ∈ scope_vars csp) →
      (∀ prune1 st1,
        Propagators1.gacScope csp c vs st q prune = .error (prune1, st1) →
        GacScopeErr csp st0 vs st prune st1 prune1) ∧
      (∀ st1 q1 prune1,
        Propagators1.gacScope csp c vs st q prune = .ok (st1, q1, prune1) →
        GacScopeOk csp st0 c vs st q prune st1 q1 prune1) := by
  intro vs
  induction vs with
  | nil =>
    intro st q prune hext _
    constructor
    · intro prune1 st1 h
      simp [Propagators1.gacScope] at h
    · intro st1 q1 prune1 h
      simp only [Propagators1.gacScope, Except.ok.injEq, Prod.mk.injEq] at h
      obtain ⟨h1, h2, h3⟩ := h
      subst h1; subst h2; subst h3
      exact ⟨[], by simp, hext, by simp, fun h => h, Nat.le_refl _,
        fun _ => ⟨rfl, rfl, by simp⟩, fun h => absurd rfl h,
        fun j hj => hj, fun h => h, fun j hj => Or.inl hj⟩
  | cons v vs ih =>
    intro st q prune hext hvs
    have hv : v ∈ scope_vars csp := hvs v (List.mem_cons_self _ _)
    have hnd : (cur_domain st v).Nodup := ext_nodup hext v (hwf0 v hv)
    have hsub : ∀ x ∈ cur_domain st v, x ∈ st.dom v := fun x hx => hx
    obtain ⟨valsE, valsO⟩ :=
      gacVals1_master (c := c) (cur_domain st v) st q prune hext hsub hnd
    constructor
    · intro prune1 st1 h
      rw [Propagators1.gacScope] at h
      cases hres : Propagators1.gacVals csp c v (cur_domain st v) st q prune with
      | error e =>
        obtain ⟨ep, es⟩ := e
        rw [hres] at h
        simp only [Except.error.injEq, Prod.mk.injEq] at h
        obtain ⟨h1, h2⟩ := h
        subst h1; subst h2
        obtain ⟨d, hd, hext1, hpairs, hndp, hds⟩ := valsE _ _ hres
        refine ⟨d, hd, hext1, ?_, hndp, hds⟩
        intro pr hpr
        obtain ⟨h1, h2, h3⟩ := hpairs pr hpr
        exact ⟨by rw [h1]; exact List.mem_cons_self _ _, by rw [h1]; exact h2, h3⟩
      | ok o =>
        obtain ⟨stm, qm, prunem⟩ := o
        rw [hres] at h
        obtain ⟨d, hd, hextm, hpairs, hndp, hds, _, _, hqmono, hqnd, hqcases⟩ :=
          valsO stm qm prunem hres
        obtain ⟨ihE, _⟩ := ih stm qm prunem hextm
          (fun u hu => hvs u (List.mem_cons_of_mem _ hu))
        obtain ⟨d', hd', hext1, hpairs', hndp', hds'⟩ := ihE prune1 st1 h
        refine ⟨d ++ d', by rw [hd', hd]; simp, hext1, ?_,
          fun hpn => hndp' (hndp hpn), Nat.le_trans hds' hds⟩
        intro pr hpr
        rcases List.mem_append.mp hpr with hpr' | hpr'
        · obtain ⟨h1, h2, h3⟩ := hpairs pr hpr'
          exact ⟨by rw [h1]; exact List.mem_cons_self _ _, by rw [h1]; exact h2, h3⟩
        · obtain ⟨h1, h2, h3⟩ := hpairs' pr hpr'
          refine ⟨List.mem_cons_of_mem _ h1, h2, fun hmem => ?_⟩
          exact h3 (by rw [hd]; exact List.mem_append_left _ hmem)
    · intro st1 q1 prune1 h
      rw [Propagators1.gacScope] at h
      cases hres : Propagators1.gacVals csp c v (cur_domain st v) st q prune with
      | error e =>
        rw [hres] at h
        cases h
      | ok o =>
        obtain ⟨stm, qm, prunem⟩ := o
        rw [hres] at h
        obtain ⟨d, hd, hextm, hpairs, hndp, hds, hempty, hne, hqmono, hqnd, hqcases⟩ :=
          valsO stm qm prunem hres
        obtain ⟨_, ihO⟩ := ih stm qm prunem hextm
          (fun u hu => hvs u (List.mem_cons_of_mem _ hu))
        obtain ⟨d', hd', hext1, hpairs', hndp', hds', hempty', hne', hqmono', hqnd', hqcases'⟩ :=
          ihO st1 q1 prune1 h
        refine ⟨d ++ d', by rw [hd', hd]; simp, hext1, ?_,
          fun hpn => hndp' (hndp hpn), Nat.le_trans hds' hds, ?_, ?_, ?_, ?_, ?_⟩
        · intro pr hpr
          rcases List.mem_append.mp hpr with hpr' | hpr'
          · obtain ⟨h1, h2, h3⟩ := hpairs pr hpr'
            exact ⟨by rw [h1]; exact List.mem_cons_self _ _, by rw [h1]; exact h2, h3⟩
          · obtain ⟨h1, h2, h3⟩ := hpairs' pr hpr'
            refine ⟨List.mem_cons_of_mem _ h1, h2, fun hmem => ?_⟩
            exact h3 (by rw [hd]; exact List.mem_append_left _ hmem)
        · intro hddnil
          rw [List.append_eq_nil] at hddnil
          obtain ⟨hstm, hqm, hsupv⟩ := hempty hddnil.1
          obtain ⟨hst1, hq1, hsup'⟩ := hempty' hddnil.2
          subst hstm; subst hqm
          refine ⟨hst1, hq1, fun u hu => ?_⟩
          rcases List.mem_cons.mp hu with rfl | hu'
          · exact hsupv
          · exact hsup' u hu'
        · intro hddne
          constructor
          · intro hallv
            rcases List.eq_nil_or_concat d with rfl | _
            · have hd'ne : d' ≠ [] := by simpa using hddne
              obtain ⟨hstm, hqm, _⟩ := hempty rfl
              subst hstm
              exact Nat.lt_of_lt_of_le ((hne' hd'ne).1 fun u hu =>
                hallv u (List.mem_cons_of_mem _ hu)) (Nat.le_refl _)
            · have hdne : d ≠ [] := by
                rename_i hcat
                obtain ⟨l, a, rfl⟩ := hcat
                simp
              exact Nat.lt_of_le_of_lt hds' ((hne hdne).1 hv)
          · intro pr hpr
            rcases List.mem_append.mp hpr with hpr' | hpr'
            · have hdne : d ≠ [] := fun hnil => by rw [hnil] at hpr'; cases hpr'
              intro j hj
              rw [(hpairs pr hpr').1] at hj
              exact hqmono' j ((hne hdne).2 j hj)
            · have hd'ne : d' ≠ [] := fun hnil => by rw [hnil] at hpr'; cases hpr'
              exact (hne' hd'ne).2 pr hpr'
        · intro j hj
          exact hqmono' j (hqmono j hj)
        · intro hqn
          exact hqnd' (hqnd hqn)
        · intro j hj
          rcases hqcases' j hj with h' | h'
          · rcases hqcases j h' with h'' | h''
            · exact Or.inl h''
            · exact Or.inr ⟨v, List.mem_cons_self _ _, h''⟩
          · obtain ⟨u, hu, hju⟩ := h'
            exact Or.inr ⟨u, List.mem_cons_of_mem _ hu, hju⟩

theorem gacScopeP_never_err {csp : CSP} {c : Constraint} :
    ∀ (vs : List Nat) (st : State) (q : List Nat) (prune : List (Nat × Int))
      (prune1 : List (Nat × Int)) (st1 : State),
      Propagators.gacScope csp c vs st q prune ≠ .error (prune1, st1) := by
  intro vs
  induction vs with
  | nil =>
    intro st q prune prune1 st1 h
    simp [Propagators.gacScope] at h
  | cons v vs ih =>
    intro st q prune prune1 st1 h
    rw [Propagators.gacScope] at h
    cases hres : Propagators.gacVals csp c v (cur_domain st v) st q prune with
    | error e =>
      obtain ⟨ep, es⟩ := e
      exact gacValsP_never_err _ _ _ _ _ _ hres
    | ok o =>
      obtain ⟨stm, qm, prunem⟩ := o
      rw [hres] at h
      exact ih _ _ _ _ _ h

theorem gacScopeP_master {csp : CSP} {c : Constraint} {st0 : State}
    (hwf0 : WFdom csp st0) :
    ∀ (vs : List Nat) (st : State) (q : List Nat) (prune : List (Nat × Int)),
      Ext st0 prune st → (∀ v ∈ vs, v ∈ scope_vars csp) →
      ∀ st1 q1 prune1,
        Propagators.gacScope csp c vs st q prune = .ok (st1, q1, prune1) →
        GacScopeOk csp st0 c vs st q prune st1 q1 prune1 := by
  intro vs
  induction vs with
  | nil =>
    intro st q prune hext _ st1 q1 prune1 h
    simp only [Propagators.gacScope, Except.ok.injEq, Prod.mk.injEq] at h
    obtain ⟨h1, h2, h3⟩ := h
    subst h1; subst h2; subst h3
    exact ⟨[], by simp, hext, by simp, fun h => h, Nat.le_refl _,
      fun _ => ⟨rfl, rfl, by simp⟩, fun h => absurd rfl h,
      fun j hj => hj, fun h => h, fun j hj => Or.inl hj⟩
  | cons v vs ih =>
    intro st q prune hext hvs st1 q1 prune1 h
    have hv : v ∈ scope_vars csp := hvs v (List.mem_cons_self _ _)
    have hnd : (cur_domain st v).Nodup := ext_nodup hext v (hwf0 v hv)
    have hsub : ∀ x ∈ cur_domain st v, x ∈ st.dom v := fun x hx => hx
    rw [Propagators.gacScope] at h
    cases hres : Propagators.gacVals csp c v (cur_domain st v) st q prune with
    | error e =>
      obtain ⟨ep, es⟩ := e
      exact absurd hres (gacValsP_never_err _ _ _ _ _ _)
    | ok o =>
      obtain ⟨stm, qm, prunem⟩ := o
      rw [hres] at h
      obtain ⟨d, hd, hextm, hpairs, hndp, hds, hempty, hne, hqmono, hqnd, hqcases⟩ :=
        gacValsP_master (c := c) (cur_domain st v) st q prune hext hsub hnd
          stm qm prunem hres
      obtain ⟨d', hd', hext1, hpairs', hndp', hds', hempty', hne', hqmono', hqnd', hqcases'⟩ :=
        ih stm qm prunem hextm (fun u hu => hvs u (List.mem_cons_of_mem _ hu))
          st1 q1 prune1 h
      refine ⟨d ++ d', by rw [hd', hd]; simp, hext1, ?_,
        fun hpn => hndp' (hndp hpn), Nat.le_trans hds' hds, ?_, ?_, ?_, ?_, ?_⟩
      · intro pr hpr
        rcases List.mem_append.mp hpr with hpr' | hpr'
        · obtain ⟨h1, h2, h3⟩ := hpairs pr hpr'
          exact ⟨by rw [h1]; exact List.mem_cons_self _ _, by rw [h1]; exact h2, h3⟩
        · obtain ⟨h1, h2, h3⟩ := hpairs' pr hpr'
          refine ⟨List.mem_cons_of_mem _ h1, h2, fun hmem => ?_⟩
          exact h3 (by rw [hd]; exact List.mem_append_left _ hmem)
      · intro hddnil
        rw [List.append_eq_nil] at hddnil
        obtain ⟨hstm, hqm, hsupv⟩ := hempty hddnil.1
        obtain ⟨hst1, hq1, hsup'⟩ := hempty' hddnil.2
        subst hstm; subst hqm
        refine ⟨hst1, hq1, fun u hu => ?_⟩
        rcases List.mem_cons.mp hu with rfl | hu'
        · exact hsupv
        · exact hsup' u hu'
      · intro hddne
        constructor
        · intro hallv
          rcases List.eq_nil_or_concat d with rfl | _
          · have hd'ne : d' ≠ [] := by simpa using hddne
            obtain ⟨hstm, hqm, _⟩ := hempty rfl
            subst hstm
            exact Nat.lt_of_lt_of_le ((hne' hd'ne).1 fun u hu =>
              hallv u (List.mem_cons_of_mem _ hu)) (Nat.le_refl _)
          · have hdne : d ≠ [] := by
              rename_i hcat
              obtain ⟨l, a, rfl⟩ := hcat
              simp
            exact Nat.lt_of_le_of_lt hds' ((hne hdne).1 hv)
        · intro pr hpr
          rcases List.mem_append.mp hpr with hpr' | hpr'
          · have hdne : d ≠ [] := fun hnil => by rw [hnil] at hpr'; cases hpr'
            intro j hj
            rw [(hpairs pr hpr').1] at hj
            exact hqmono' j ((hne hdne).2 j hj)
          · have hd'ne : d' ≠ [] := fun hnil => by rw [hnil] at hpr'; cases hpr'
            exact (hne' hd'ne).2 pr hpr'
      · intro j hj
        exact hqmono' j (hqmono j hj)
      · intro hqn
        exact hqnd' (hqnd hqn)
      · intro j hj
        rcases hqcases' j hj with h' | h'
        · rcases hqcases j h' with h'' | h''
          · exact Or.inl h''
          · exact Or.inr ⟨v, List.mem_cons_self _ _, h''⟩
        · obtain ⟨u, hu, hju⟩ := h'
          exact Or.inr ⟨u, List.mem_cons_of_mem _ hu, hju⟩

/-- Arc consistency of constraint `j` in state `st`: every value in the
    current domain of every scope variable has support. -/
def ConsistentC (csp : CSP) (st : State) (j : Nat) : Prop :=
  ∀ v ∈ (get_cons csp j).scope, ∀ x ∈ st.dom v,
    has_support st (get_cons csp j) v x = true

theorem gacLoop1_master {csp : CSP} {st0 : State} (hwf0 : WFdom csp st0) :
    ∀ (fuel : Nat) (st : State) (q : List Nat) (prune : List (Nat × Int)) (J : List Nat),
      Ext st0 prune st → q.Nodup → (∀ j ∈ q, j < csp.cons.length) →
      (∀ j ∈ J, j < csp.cons.length) →
      (∀ j ∈ J, j ∈ q ∨ ConsistentC csp st j) →
      dom_sum csp st * (csp.cons.length + 1) + q.length + 1 ≤ fuel →
      ∃ r, Propagators1.gacLoop csp fuel st q prune = some r ∧
        (∃ d, r.2.1 = prune ++ d ∧
          ∀ pr ∈ d, pr.1 ∈ scope_vars csp ∧ pr.2 ∈ st0.dom pr.1) ∧
        Ext st0 r.2.1 r.2.2 ∧
        (prune.Nodup → r.2.1.Nodup) ∧
        (r.1 = true → ∀ j ∈ J, ConsistentC csp r.2.2 j) := by
  intro fuel
  induction fuel with
  | zero =>
    intro st q prune J _ _ _ _ _ hfuel
    omega
  | succ fuel ih =>
    intro st q prune J hext hqnd hqb hJb hJ hfuel
    cases q with
    | nil =>
      refine ⟨(true, prune, st), rfl, ⟨[], by simp, by simp⟩, hext, fun h => h, ?_⟩
      intro _ j hj
      rcases hJ j hj with h | h
      · cases h
      · exact h
    | cons i rest =>
      have hiL : i < csp.cons.length := hqb i (List.mem_cons_self _ _)
      have hscopesub := scope_sub_scope_vars hiL
      have hrestnd : rest.Nodup := (List.nodup_cons.mp hqnd).2
      cases hres : Propagators1.gacScope csp (get_cons csp i) (get_cons csp i).scope
          st rest prune with
      | error e =>
        obtain ⟨ep, es⟩ := e
        obtain ⟨d, hd, hext1, hpairs, hndp, hds⟩ :=
          (gacScope1_master hwf0 _ st rest prune hext hscopesub).1 ep es hres
        refine ⟨(false, ep, es), ?_, ⟨d, hd, ?_⟩, hext1, hndp, fun h => nomatch h⟩
        · rw [Propagators1.gacLoop, hres]
        · intro pr hpr
          obtain ⟨h1, h2, _⟩ := hpairs pr hpr
          exact ⟨hscopesub pr.1 h1, h2⟩
      | ok o =>
        obtain ⟨st1, q1, p1⟩ := o
        obtain ⟨d, hd, hext1, hpairs, hndp, hds, hempty, hne, hqmono, hqnd1, hqcases⟩ :=
          (gacScope1_master hwf0 _ st rest prune hext hscopesub).2 st1 q1 p1 hres
        have hq1nd : q1.Nodup := hqnd1 hrestnd
        have hq1b : ∀ j ∈ q1, j < csp.cons.length := by
          intro j hj
          rcases hqcases j hj with h' | h'
          · exact hqb j (List.mem_cons_of_mem _ h')
          · obtain ⟨u, _, hju⟩ := h'
            exact (mem_get_cons_with_var.mp hju).1
        have hA1 : st1.assigned = st.assigned := by rw [hext1.1, hext.1]
        have hJnew : ∀ j ∈ J, j ∈ q1 ∨ ConsistentC csp st1 j := by
          intro j hj
          rcases hJ j hj with h | h
          · rcases List.mem_cons.mp h with rfl | hr'
            · by_cases hdnil : d = []
              · obtain ⟨hst1, _, hsup⟩ := hempty hdnil
                subst hst1
                exact Or.inr hsup
              · obtain ⟨pr, hpr⟩ := List.exists_mem_of_ne_nil d hdnil
                have : j ∈ get_cons_with_var csp pr.1 :=
                  mem_get_cons_with_var.mpr ⟨hiL, (hpairs pr hpr).1⟩
                exact Or.inl ((hne hdnil).2 pr hpr j this)
            · exact Or.inl (hqmono j hr')
          · by_cases hjq : j ∈ q1
            · exact Or.inl hjq
            · refine Or.inr ?_
              have hvarsne : ∀ pr ∈ d, pr.1 ∉ (get_cons csp j).scope := by
                intro pr hpr hmem
                by_cases hdnil : d = []
                · rw [hdnil] at hpr; cases hpr
                · exact hjq ((hne hdnil).2 pr hpr j
                    (mem_get_cons_with_var.mpr ⟨hJb j hj, hmem⟩))
              have hdomeq : ∀ w ∈ (get_cons csp j).scope, st1.dom w = st.dom w := by
                intro w hw
                have hext1' : Ext st0 (prune ++ d) st1 := by rw [← hd]; exact hext1
                rw [ext_append_dom hext hext1' w]
                apply List.filter_eq_self.mpr
                intro y _
                simp only [decide_eq_true_eq]
                intro hmem
                exact (hvarsne (w, y) hmem) hw
              intro v hv x hx
              rw [hdomeq v hv] at hx
              rw [has_support_congr _ hA1 hdomeq v x]
              exact h v hv x hx
        have hfuel' :
            dom_sum csp st1 * (csp.cons.length + 1) + q1.length + 1 ≤ fuel := by
          by_cases hdnil : d = []
          · obtain ⟨hst1, hq1, _⟩ := hempty hdnil
            subst hst1; subst hq1
            simp only [List.length_cons] at hfuel
            omega
          · have hlt : dom_sum csp st1 < dom_sum csp st := (hne hdnil).1 hscopesub
            have hq1len : q1.length ≤ csp.cons.length :=
              nodup_bounded_length hq1nd hq1b
            have hmul : dom_sum csp st1 * (csp.cons.length + 1) + (csp.cons.length + 1) ≤
                dom_sum csp st * (csp.cons.length + 1) := by
              have h1 : dom_sum csp st1 + 1 ≤ dom_sum csp st := hlt
              calc dom_sum csp st1 * (csp.cons.length + 1) + (csp.cons.length + 1)
                  = (dom_sum csp st1 + 1) * (csp.cons.length + 1) := by ring
                _ ≤ dom_sum csp st * (csp.cons.length + 1) :=
                    Nat.mul_le_mul_right _ h1
            simp only [List.length_cons] at hfuel
            omega
        obtain ⟨r, hr, ⟨d', hd', hpairs'⟩, hextr, hndr, hconsr⟩ :=
          ih st1 q1 p1 J hext1 hq1nd hq1b hJb hJnew hfuel'
        refine ⟨r, ?_, ⟨d ++ d', ?_, ?_⟩, hextr, ?_, hconsr⟩
        · rw [Propagators1.gacLoop, hres]
          exact hr
        · rw [hd', hd]; simp
        · intro pr hpr
          rcases List.mem_append.mp hpr with hpr' | hpr'
          · obtain ⟨h1, h2, _⟩ := hpairs pr hpr'
            exact ⟨hscopesub pr.1 h1, h2⟩
          · exact hpairs' pr hpr'
        · intro hpn
          exact hndr (hndp hpn)

theorem gacLoopP_master {csp : CSP} {st0 : State} (hwf0 : WFdom csp st0) :
    ∀ (fuel : Nat) (st : State) (q : List Nat) (prune : List (Nat × Int)),
      Ext st0 prune st → q.Nodup → (∀ j ∈ q, j < csp.cons.length) →
      dom_sum csp st * (csp.cons.length + 1) + q.length + 1 ≤ fuel →
      ∃ r, Propagators.gacLoop csp fuel st q prune = some r ∧ r.1 = true ∧
        (∃ d, r.2.1 = prune ++ d ∧
          ∀ pr ∈ d, pr.1 ∈ scope_vars csp ∧ pr.2 ∈ st0.dom pr.1) ∧
        Ext st0 r.2.1 r.2.2 ∧
        (prune.Nodup → r.2.1.Nodup) := by
  intro fuel
  induction fuel with
  | zero =>
    intro st q prune _ _ _ hfuel
    omega
  | succ fuel ih =>
    intro st q prune hext hqnd hqb hfuel
    cases q with
    | nil =>
      exact ⟨(true, prune, st), rfl, rfl, ⟨[], by simp, by simp⟩, hext, fun h => h⟩
    | cons i rest =>
      have hiL : i < csp.cons.length := hqb i (List.mem_cons_self _ _)
      have hscopesub := scope_sub_scope_vars hiL
      have hrestnd : rest.Nodup := (List.nodup_cons.mp hqnd).2
      cases hres : Propagators.gacScope csp (get_cons csp i) (get_cons csp i).scope
          st rest prune with
      | error e =>
        obtain ⟨ep, es⟩ := e
        exact absurd hres (gacScopeP_never_err _ _ _ _ _ _)
      | ok o =>
        obtain ⟨st1, q1, p1⟩ := o
        obtain ⟨d, hd, hext1, hpairs, hndp, hds, hempty, hne, hqmono, hqnd1, hqcases⟩ :=
          gacScopeP_master hwf0 _ st rest prune hext hscopesub st1 q1 p1 hres
        have hq1nd : q1.Nodup := hqnd1 hrestnd
        have hq1b : ∀ j ∈ q1, j < csp.cons.length := by
          intro j hj
          rcases hqcases j hj with h' | h'
          · exact hqb j (List.mem_cons_of_mem _ h')
          · obtain ⟨u, _, hju⟩ := h'
            exact (mem_get_cons_with_var.mp hju).1
        have hfuel' :
            dom_sum csp st1 * (csp.cons.length + 1) + q1.length + 1 ≤ fuel := by
          by_cases hdnil : d = []
          · obtain ⟨hst1, hq1, _⟩ := hempty hdnil
            subst hst1; subst hq1
            simp only [List.length_cons] at hfuel
            omega
          · have hlt : dom_sum csp st1 < dom_sum csp st := (hne hdnil).1 hscopesub
            have hq1len : q1.length ≤ csp.cons.length :=
              nodup_bounded_length hq1nd hq1b
            have hmul : dom_sum csp st1 * (csp.cons.length + 1) + (csp.cons.length + 1) ≤
                dom_sum csp st * (csp.cons.length + 1) := by
              have h1 : dom_sum csp st1 + 1 ≤ dom_sum csp st := hlt
              calc dom_sum csp st1 * (csp.cons.length + 1) + (csp.cons.length + 1)
                  = (dom_sum csp st1 + 1) * (csp.cons.length + 1) := by ring
                _ ≤ dom_sum csp st * (csp.cons.length + 1) :=
                    Nat.mul_le_mul_right _ h1
            simp only [List.length_cons] at hfuel
            omega
        obtain ⟨r, hr, hrt, ⟨d', hd', hpairs'⟩, hextr, hndr⟩ :=
          ih st1 q1 p1 hext1 hq1nd hq1b hfuel'
        refine ⟨r, ?_, hrt, ⟨d ++ d', ?_, ?_⟩, hextr, ?_⟩
        · rw [Propagators.gacLoop, hres]
          exact hr
        · rw [hd', hd]; simp
        · intro pr hpr
          rcases List.mem_append.mp hpr with hpr' | hpr'
          · obtain ⟨h1, h2, _⟩ := hpairs pr hpr'
            exact ⟨hscopesub pr.1 h1, h2⟩
          · exact hpairs' pr hpr'
        · intro hpn
          exact hndr (hndp hpn)

/-! ## Invariant lemmas for the forward checking loops -/

/-- What a run of an FC value loop over variable `v` guarantees, for both a
    normal finish and a wipe-out abort. -/
def FcValsRun (st0 : State) (v : Nat) (prune : List (Nat × Int))
    (st1 : State) (prune1 : List (Nat × Int)) : Prop :=
  ∃ d, prune1 = prune ++ d ∧ Ext st0 prune1 st1 ∧
    (∀ pr ∈ d, pr.1 = v ∧ pr.2 ∈ st0.dom v ∧ pr ∉ prune) ∧
    (prune.Nodup → prune1.Nodup)

theorem fcVals1_master {c : Constraint} {v : Nat} {st0 : State} :
    ∀ (vals : List Int) (st : State) (prune : List (Nat × Int)),
      Ext st0 prune st → (∀ x ∈ vals, x ∈ st.dom v) → vals.Nodup →
      ∀ res, Propagators1.fcVals c v vals st prune = res →
        ∀ prune1 st1, (res = .error (prune1, st1) ∨ res = .ok (prune1, st1)) →
          FcValsRun st0 v prune st1 prune1 := by
  intro vals
  induction vals with
  | nil =>
    intro st prune hext _ _ res hres prune1 st1 hcases
    rcases hcases with h | h
    · rw [← hres] at h
      simp [Propagators1.fcVals] at h
    · rw [← hres] at h
      simp only [Propagators1.fcVals, Except.ok.injEq, Prod.mk.injEq] at h
      obtain ⟨h1, h2⟩ := h
      subst h1; subst h2
      exact ⟨[], by simp, hext, by simp, fun h => h⟩
  | cons val rest ih =>
    intro st prune hext hvals hnd res hres prune1 st1 hcases
    have hvmem : val ∈ st.dom v := hvals val (List.mem_cons_self _ _)
    have hmem0 := (ext_mem hext v val).mp hvmem
    have hnotp : (v, val) ∉ prune := hmem0.2
    cases hS : has_support st c v val with
    | true =>
      rw [fcVals1_cons_sup hS] at hres
      exact ih st prune hext (fun x hx => hvals x (List.mem_cons_of_mem _ hx))
        (List.nodup_cons.mp hnd).2 res hres prune1 st1 hcases
    | false =>
      rw [fcVals1_cons_prune hS hnotp] at hres
      have hnodup_step : prune.Nodup → (prune ++ [(v, val)]).Nodup := by
        intro hpn
        rw [List.nodup_append]
        exact ⟨hpn, List.nodup_singleton _, by simpa using hnotp⟩
      by_cases hz : cur_domain_size (prune_value st v val) v = 0
      · rw [if_pos hz] at hres
        have herr : res = .error (prune ++ [(v, val)], prune_value st v val) := hres.symm
        have : prune1 = prune ++ [(v, val)] ∧ st1 = prune_value st v val := by
          rcases hcases with h | h <;> rw [herr] at h
          · simp only [Except.error.injEq, Prod.mk.injEq] at h
            exact ⟨h.1.symm, h.2.symm⟩
          · cases h
        obtain ⟨h1, h2⟩ := this
        subst h1; subst h2
        refine ⟨[(v, val)], rfl, ext_step hext v val, ?_, hnodup_step⟩
        intro pr hpr
        rw [List.mem_singleton.mp hpr]
        exact ⟨rfl, hmem0.1, hnotp⟩
      · rw [if_neg hz] at hres
        have hext' : Ext st0 (prune ++ [(v, val)]) (prune_value st v val) :=
          ext_step hext v val
        have hval_nin : val ∉ rest := (List.nodup_cons.mp hnd).1
        have hvals' : ∀ x ∈ rest, x ∈ (prune_value st v val).dom v := by
          intro x hx
          rw [prune_value_dom, if_pos rfl]
          refine List.mem_filter.mpr ⟨hvals x (List.mem_cons_of_mem _ hx), ?_⟩
          have : x ≠ val := fun heq => hval_nin (heq ▸ hx)
          simpa using this
        obtain ⟨d', hd', hext1, hpairs', hndp'⟩ :=
          ih (prune_value st v val) (prune ++ [(v, val)]) hext' hvals'
            (List.nodup_cons.mp hnd).2 res hres prune1 st1 hcases
        refine ⟨(v, val) :: d', by rw [hd']; simp, hext1, ?_,
          fun hpn => hndp' (hnodup_step hpn)⟩
        intro pr hpr
        rcases List.mem_cons.mp hpr with rfl | hpr'
        · exact ⟨rfl, hmem0.1, hnotp⟩
        · obtain ⟨h1, h2, h3⟩ := hpairs' pr hpr'
          exact ⟨h1, h2, fun hmem => h3 (List.mem_append_left _ hmem)⟩

theorem fcValsP_master {c : Constraint} {v : Nat} {st0 : State} :
    ∀ (vals : List Int) (st : State) (prune : List (Nat × Int)),
      Ext st0 prune st → (∀ x ∈ vals, x ∈ st.dom v) → vals.Nodup →
      ∀ res, Propagators.fcVals c v vals st prune = res →
        ∀ prune1 st1, (res = .error (prune1, st1) ∨ res = .ok (prune1, st1)) →
          FcValsRun st0 v prune st1 prune1 := by
  intro vals
  induction vals with
  | nil =>
    intro st prune hext _ _ res hres prune1 st1 hcases
    rcases hcases with h | h
    · rw [← hres] at h
      simp [Propagators.fcVals] at h
    · rw [← hres] at h
      simp only [Propagators.fcVals, Except.ok.injEq, Prod.mk.injEq] at h
      obtain ⟨h1, h2⟩ := h
      subst h1; subst h2
      exact ⟨[], by simp, hext, by simp, fun h => h⟩
  | cons val rest ih =>
    intro st prune hext hvals hnd res hres prune1 st1 hcases
    have hvmem : val ∈ st.dom v := hvals val (List.mem_cons_self _ _)
    have hmem0 := (ext_mem hext v val).mp hvmem
    have hnotp : (v, val) ∉ prune := hmem0.2
    cases hS : has_support st c v val with
    | true =>
      rw [fcValsP_cons_skip (by simp [hS])] at hres
      exact ih st prune hext (fun x hx => hvals x (List.mem_cons_of_mem _ hx))
        (List.nodup_cons.mp hnd).2 res hres prune1 st1 hcases
    | false =>
      rw [fcValsP_cons_prune hS hnotp] at hres
      have hnodup_step : prune.Nodup → (prune ++ [(v, val)]).Nodup := by
        intro hpn
        rw [List.nodup_append]
        exact ⟨hpn, List.nodup_singleton _, by simpa using hnotp⟩
      have hext' : Ext st0 (prune ++ [(v, val)]) (prune_value st v val) :=
        ext_step hext v val
      have hval_nin : val ∉ rest := (List.nodup_cons.mp hnd).1
      have hvals' : ∀ x ∈ rest, x ∈ (prune_value st v val).dom v := by
        intro x hx
        rw [prune_value_dom, if_pos rfl]
        refine List.mem_filter.mpr ⟨hvals x (List.mem_cons_of_mem _ hx), ?_⟩
        have : x ≠ val := fun heq => hval_nin (heq ▸ hx)
        simpa using this
      obtain ⟨d', hd', hext1, hpairs', hndp'⟩ :=
        ih (prune_value st v val) (prune ++ [(v, val)]) hext' hvals'
          (List.nodup_cons.mp hnd).2 res hres prune1 st1 hcases
      refine ⟨(v, val) :: d', by rw [hd']; simp, hext1, ?_,
        fun hpn => hndp' (hnodup_step hpn)⟩
      intro pr hpr
      rcases List.mem_cons.mp hpr with rfl | hpr'
      · exact ⟨rfl, hmem0.1, hnotp⟩
      · obtain ⟨h1, h2, h3⟩ := hpairs' pr hpr'
        exact ⟨h1, h2, fun hmem => h3 (List.mem_append_left _ hmem)⟩

/-- The single unassigned variable selected by forward checking is a scope
    variable of the constraint. -/
theorem headD_unasgn_mem_scope {st : State} {c : Constraint}
    (h : get_n_unasgn st c = 1) :
    (get_unasgn_vars st c).headD 0 ∈ c.scope := by
  unfold get_n_unasgn at h
  cases hu : get_unasgn_vars st c with
  | nil => rw [hu] at h; cases h
  | cons v' t =>
    have : v' ∈ get_unasgn_vars st c := by rw [hu]; exact List.mem_cons_self _ _
    have hv' : v' ∈ c.scope := (List.mem_filter.mp this).1
    simpa using hv'

theorem fcCons1_master {csp : CSP} {st0 : State} (hwf0 : WFdom csp st0) :
    ∀ (L : List Nat) (st : State) (prune : List (Nat × Int)),
      Ext st0 prune st → (∀ i ∈ L, i < csp.cons.length) →
      ∀ b prune1 st1, Propagators1.fcCons csp L st prune = (b, prune1, st1) →
        ∃ d, prune1 = prune ++ d ∧ Ext st0 prune1 st1 ∧
          (∀ pr ∈ d, pr.1 ∈ scope_vars csp ∧ pr.2 ∈ st0.dom pr.1) ∧
          (prune.Nodup → prune1.Nodup) := by
  intro L
  induction L with
  | nil =>
    intro st prune hext _ b prune1 st1 h
    simp only [Propagators1.fcCons, Prod.mk.injEq] at h
    obtain ⟨_, h2, h3⟩ := h
    subst h2; subst h3
    exact ⟨[], by simp, hext, by simp, fun h => h⟩
  | cons i rest ih =>
    intro st prune hext hL b prune1 st1 h
    have hiL : i < csp.cons.length := hL i (List.mem_cons_self _ _)
    rw [Propagators1.fcCons] at h
    by_cases hn : get_n_unasgn st (get_cons csp i) = 1
    · rw [if_pos hn] at h
      have hv : (get_unasgn_vars st (get_cons csp i)).headD 0 ∈ scope_vars csp :=
        scope_sub_scope_vars hiL _ (headD_unasgn_mem_scope hn)
      have hnd : (cur_domain st ((get_unasgn_vars st (get_cons csp i)).headD 0)).Nodup :=
        ext_nodup hext _ (hwf0 _ hv)
      cases hres : Propagators1.fcVals (get_cons csp i)
          ((get_unasgn_vars st (get_cons csp i)).headD 0)
          (cur_domain st ((get_unasgn_vars st (get_cons csp i)).headD 0)) st prune with
      | error e =>
        obtain ⟨ep, es⟩ := e
        simp only [hres, Prod.mk.injEq] at h
        obtain ⟨_, h2, h3⟩ := h
        subst h2; subst h3
        obtain ⟨d, hd, hext1, hpairs, hndp⟩ :=
          fcVals1_master _ st prune hext (fun x hx => hx) hnd _ hres ep es (Or.inl rfl)
        refine ⟨d, hd, hext1, ?_, hndp⟩
        intro pr hpr
        obtain ⟨h1, h2, _⟩ := hpairs pr hpr
        exact ⟨by rw [h1]; exact hv, by rw [h1]; exact h2⟩
      | ok o =>
        obtain ⟨op, os⟩ := o
        simp only [hres] at h
        obtain ⟨d, hd, hextm, hpairs, hndp⟩ :=
          fcVals1_master _ st prune hext (fun x hx => hx) hnd _ hres op os (Or.inr rfl)
        obtain ⟨d', hd', hext1, hpairs', hndp'⟩ :=
          ih os op hextm (fun j hj => hL j (List.mem_cons_of_mem _ hj)) b prune1 st1 h
        refine ⟨d ++ d', by rw [hd', hd]; simp, hext1, ?_, fun hpn => hndp' (hndp hpn)⟩
        intro pr hpr
        rcases List.mem_append.mp hpr with hpr' | hpr'
        · obtain ⟨h1, h2, _⟩ := hpairs pr hpr'
          exact ⟨by rw [h1]; exact hv, by rw [h1]; exact h2⟩
        · exact hpairs' pr hpr'
    · rw [if_neg hn] at h
      exact ih st prune hext (fun j hj => hL j (List.mem_cons_of_mem _ hj)) b prune1 st1 h

theorem fcConsP_master {csp : CSP} {st0 : State} (hwf0 : WFdom csp st0) :
    ∀ (L : List Nat) (st : State) (prune : List (Nat × Int)),
      Ext st0 prune st → (∀ i ∈ L, i < csp.cons.length) →
      ∀ b prune1 st1, Propagators.fcCons csp L st prune = (b, prune1, st1) →
        ∃ d, prune1 = prune ++ d ∧ Ext st0 prune1 st1 ∧
          (∀ pr ∈ d, pr.1 ∈ scope_vars csp ∧ pr.2 ∈ st0.dom pr.1) ∧
          (prune.Nodup → prune1.Nodup) := by
  intro L
  induction L with
  | nil =>
    intro st prune hext _ b prune1 st1 h
    simp only [Propagators.fcCons, Prod.mk.injEq] at h
    obtain ⟨_, h2, h3⟩ := h
    subst h2; subst h3
    exact ⟨[], by simp, hext, by simp, fun h => h⟩
  | cons i rest ih =>
    intro st prune hext hL b prune1 st1 h
    have hiL : i < csp.cons.length := hL i (List.mem_cons_self _ _)
    rw [Propagators.fcCons] at h
    by_cases hn : get_n_unasgn st (get_cons csp i) = 1
    · rw [if_pos hn] at h
      have hv : (get_unasgn_vars st (get_cons csp i)).headD 0 ∈ scope_vars csp :=
        scope_sub_scope_vars hiL _ (headD_unasgn_mem_scope hn)
      have hnd : (cur_domain st ((get_unasgn_vars st (get_cons csp i)).headD 0)).Nodup :=
        ext_nodup hext _ (hwf0 _ hv)
      cases hres : Propagators.fcVals (get_cons csp i)
          ((get_unasgn_vars st (get_cons csp i)).headD 0)
          (cur_domain st ((get_unasgn_vars st (get_cons csp i)).headD 0)) st prune with
      | error e =>
        obtain ⟨ep, es⟩ := e
        simp only [hres, Prod.mk.injEq] at h
        obtain ⟨_, h2, h3⟩ := h
        subst h2; subst h3
        obtain ⟨d, hd, hext1, hpairs, hndp⟩ :=
          fcValsP_master _ st prune hext (fun x hx => hx) hnd _ hres ep es (Or.inl rfl)
        refine ⟨d, hd, hext1, ?_, hndp⟩
        intro pr hpr
        obtain ⟨h1, h2, _⟩ := hpairs pr hpr
        exact ⟨by rw [h1]; exact hv, by rw [h1]; exact h2⟩
      | ok o =>
        obtain ⟨op, os⟩ := o
        simp only [hres] at h
        obtain ⟨d, hd, hextm, hpairs, hndp⟩ :=
          fcValsP_master _ st prune hext (fun x hx => hx) hnd _ hres op os (Or.inr rfl)
        obtain ⟨d', hd', hext1, hpairs', hndp'⟩ :=
          ih os op hextm (fun j hj => hL j (List.mem_cons_of_mem _ hj)) b prune1 st1 h
        refine ⟨d ++ d', by rw [hd', hd]; simp, hext1, ?_, fun hpn => hndp' (hndp hpn)⟩
        intro pr hpr
        rcases List.mem_append.mp hpr with hpr' | hpr'
        · obtain ⟨h1, h2, _⟩ := hpairs pr hpr'
          exact ⟨by rw [h1]; exact hv, by rw [h1]; exact h2⟩
        · exact hpairs' pr hpr'
    · rw [if_neg hn] at h
      exact ih st prune hext (fun j hj => hL j (List.mem_cons_of_mem _ hj)) b prune1 st1 h

/-! ## Soundness of the returned pruning records -/

/-- Soundness of one returned propagation result with respect to the entry
    state: the pruning record is duplicate free, every recorded value was
    present in the current domain of its variable on entry, assignments are
    untouched, and the exit domains are exactly the entry domains minus the
    recorded pairs, so the record lists exactly the prunings performed. -/
def PruneSound (st : State) (res : Bool × List (Nat × Int) × State) : Prop :=
  res.2.1.Nodup ∧ (∀ pr ∈ res.2.1, pr.2 ∈ st.dom pr.1) ∧
    res.2.2.assigned = st.assigned ∧
    ∀ w, res.2.2.dom w = (st.dom w).filter fun y => decide ((w, y) ∉ res.2.1)

theorem length_get_all_cons (csp : CSP) :
    (get_all_cons csp).length = csp.cons.length := List.length_range _

theorem length_get_cons_with_var_le (csp : CSP) (v : Nat) :
    (get_cons_with_var csp v).length ≤ csp.cons.length := by
  unfold get_cons_with_var
  calc ((List.range csp.cons.length).filter _).length
      ≤ (List.range csp.cons.length).length := List.length_filter_le _ _
    _ = csp.cons.length := List.length_range _

theorem prop_BT_sound (csp : CSP) (newVar : Option Nat) (st : State) :
    PruneSound st (Propagators.prop_BT csp newVar st) := by
  have hdom : ∀ (w : Nat), st.dom w =
      (st.dom w).filter fun y => decide ((w, y) ∉ ([] : List (Nat × Int))) :=
    (ext_refl st).2
  cases newVar with
  | none => exact ⟨List.nodup_nil, by simp [Propagators.prop_BT], rfl, hdom⟩
  | some v => exact ⟨List.nodup_nil, by simp [Propagators.prop_BT], rfl, hdom⟩

theorem prop_BT1_sound (csp : CSP) (newVar : Option Nat) (st : State) :
    PruneSound st (Propagators1.prop_BT csp newVar st) := by
  have hdom : ∀ (w : Nat), st.dom w =
      (st.dom w).filter fun y => decide ((w, y) ∉ ([] : List (Nat × Int))) :=
    (ext_refl st).2
  cases newVar with
  | none => exact ⟨List.nodup_nil, by simp [Propagators1.prop_BT], rfl, hdom⟩
  | some v => exact ⟨List.nodup_nil, by simp [Propagators1.prop_BT], rfl, hdom⟩

theorem prop_FC1_sound (csp : CSP) (newVar : Option Nat) (st : State)
    (hwf : WFdom csp st) : PruneSound st (Propagators1.prop_FC csp newVar st) := by
  have main : ∀ L : List Nat, (∀ i ∈ L, i < csp.cons.length) →
      PruneSound st (Propagators1.fcCons csp L st []) := by
    intro L hL
    rcases hres : Propagators1.fcCons csp L st [] with ⟨b, p1, s1⟩
    obtain ⟨d, hd, hext1, hpairs, hndp⟩ :=
      fcCons1_master hwf L st [] (ext_refl st) hL b p1 s1 hres
    rw [List.nil_append] at hd
    subst hd
    exact ⟨hndp List.nodup_nil, fun pr hpr => (hpairs pr hpr).2, hext1.1, hext1.2⟩
  cases newVar with
  | none =>
    exact main (get_all_cons csp) fun i hi => mem_get_all_cons.mp hi
  | some v =>
    exact main (get_cons_with_var csp v) fun i hi => (mem_get_cons_with_var.mp hi).1

theorem prop_FCP_sound (csp : CSP) (newVar : Option Nat) (st : State)
    (hwf : WFdom csp st) : PruneSound st (Propagators.prop_FC csp newVar st) := by
  have main : ∀ L : List Nat, (∀ i ∈ L, i < csp.cons.length) →
      PruneSound st (Propagators.fcCons csp L st []) := by
    intro L hL
    rcases hres : Propagators.fcCons csp L st [] with ⟨b, p1, s1⟩
    obtain ⟨d, hd, hext1, hpairs, hndp⟩ :=
      fcConsP_master hwf L st [] (ext_refl st) hL b p1 s1 hres
    rw [List.nil_append] at hd
    subst hd
    exact ⟨hndp List.nodup_nil, fun pr hpr => (hpairs pr hpr).2, hext1.1, hext1.2⟩
  cases newVar with
  | none =>
    exact main (get_all_cons csp) fun i hi => mem_get_all_cons.mp hi
  | some v =>
    exact main (get_cons_with_var csp v) fun i hi => (mem_get_cons_with_var.mp hi).1

theorem prop_GAC1_run (csp : CSP) (newVar : Option Nat) (st : State)
    (hwf : WFdom csp st) :
    ∃ r, Propagators1.prop_GAC csp newVar st = some r ∧ PruneSound st r ∧
      (∀ pr ∈ r.2.1, pr.1 ∈ scope_vars csp) ∧
      (r.1 = true → ∀ j ∈ (match newVar with
        | none => get_all_cons csp
        | some v => get_cons_with_var csp v), ConsistentC csp r.2.2 j) := by
  have main : ∀ q0 : List Nat, q0.Nodup → (∀ i ∈ q0, i < csp.cons.length) →
      q0.length ≤ csp.cons.length →
      ∃ r, Propagators1.gacLoop csp (gac_fuel csp st) st q0 [] = some r ∧
        PruneSound st r ∧ (∀ pr ∈ r.2.1, pr.1 ∈ scope_vars csp) ∧
        (r.1 = true → ∀ j ∈ q0, ConsistentC csp r.2.2 j) := by
    intro q0 hnd hb hlen
    have hfuel : dom_sum csp st * (csp.cons.length + 1) + q0.length + 1 ≤
        gac_fuel csp st := by
      unfold gac_fuel
      omega
    obtain ⟨r, hr, ⟨d, hd, hpairs⟩, hextr, hndr, hconsr⟩ :=
      gacLoop1_master hwf (gac_fuel csp st) st q0 [] q0 (ext_refl st) hnd hb hb
        (fun j hj => Or.inl hj) hfuel
    rw [List.nil_append] at hd
    refine ⟨r, hr, ⟨?_, ?_, hextr.1, hextr.2⟩, ?_, hconsr⟩
    · exact hndr List.nodup_nil
    · intro pr hpr
      rw [hd] at hpr
      exact (hpairs pr hpr).2
    · intro pr hpr
      rw [hd] at hpr
      exact (hpairs pr hpr).1
  cases newVar with
  | none =>
    exact main (get_all_cons csp) (nodup_get_all_cons csp)
      (fun i hi => mem_get_all_cons.mp hi) (length_get_all_cons csp).le
  | some v =>
    exact main (get_cons_with_var csp v) (nodup_get_cons_with_var csp v)
      (fun i hi => (mem_get_cons_with_var.mp hi).1)
      (length_get_cons_with_var_le csp v)

theorem prop_GACP_run (csp : CSP) (newVar : Option Nat) (st : State)
    (hwf : WFdom csp st) :
    ∃ r, Propagators.prop_GAC csp newVar st = some r ∧ r.1 = true ∧
      PruneSound st r ∧ (∀ pr ∈ r.2.1, pr.1 ∈ scope_vars csp) := by
  have main : ∀ q0 : List Nat, q0.Nodup → (∀ i ∈ q0, i < csp.cons.length) →
      q0.length ≤ csp.cons.length →
      ∃ r, Propagators.gacLoop csp (gac_fuel csp st) st q0 [] = some r ∧
        r.1 = true ∧ PruneSound st r ∧ (∀ pr ∈ r.2.1, pr.1 ∈ scope_vars csp) := by
    intro q0 hnd hb hlen
    have hfuel : dom_sum csp st * (csp.cons.length + 1) + q0.length + 1 ≤
        gac_fuel csp st := by
      unfold gac_fuel
      omega
    obtain ⟨r, hr, hrt, ⟨d, hd, hpairs⟩, hextr, hndr⟩ :=
      gacLoopP_master hwf (gac_fuel csp st) st q0 [] (ext_refl st) hnd hb hfuel
    rw [List.nil_append] at hd
    refine ⟨r, hr, hrt, ⟨?_, ?_, hextr.1, hextr.2⟩, ?_⟩
    · exact hndr List.nodup_nil
    · intro pr hpr
      rw [hd] at hpr
      exact (hpairs pr hpr).2
    · intro pr hpr
      rw [hd] at hpr
      exact (hpairs pr hpr).1
  cases newVar with
  | none =>
    exact main (get_all_cons csp) (nodup_get_all_cons csp)
      (fun i hi => mem_get_all_cons.mp hi) (length_get_all_cons csp).le
  | some v =>
    exact main (get_cons_with_var csp v) (nodup_get_cons_with_var csp v)
      (fun i hi => (mem_get_cons_with_var.mp hi).1)
      (length_get_cons_with_var_le csp v)

/-! ## Counting pruned pairs -/

theorem length_filter_partition {α : Type} (p : α → Bool) (l : List α) :
    (l.filter p).length + (l.filter fun a => !p a).length = l.length := by
  induction l with
  | nil => rfl
  | cons a t ih =>
    cases h : p a <;> simp [List.filter_cons, h] <;> omega

theorem pairs_length_le (dom : Nat → List Int) :
    ∀ (l : List Nat) (p : List (Nat × Int)), p.Nodup →
      (∀ pr ∈ p, pr.1 ∈ l ∧ pr.2 ∈ dom pr.1) →
      (∀ v ∈ l, (dom v).Nodup) →
      p.length ≤ (l.map fun v => (dom v).length).sum := by
  intro l
  induction l with
  | nil =>
    intro p _ hmem _
    cases p with
    | nil => simp
    | cons pr t => exact absurd (hmem pr (List.mem_cons_self _ _)).1 (List.not_mem_nil _)
  | cons v t ih =>
    intro p hnd hmem hdomnd
    have hsplit := length_filter_partition (fun pr : Nat × Int => decide (pr.1 = v)) p
    have h1 : (p.filter fun pr : Nat × Int => decide (pr.1 = v)).length ≤
        (dom v).length := by
      have hfst : ∀ pr ∈ (p.filter fun pr : Nat × Int => decide (pr.1 = v)), pr.1 = v := by
        intro pr hpr
        simpa using (List.mem_filter.mp hpr).2
      have hnd2 : ((p.filter fun pr : Nat × Int => decide (pr.1 = v)).map
          Prod.snd).Nodup := by
        refine List.Nodup.map_on ?_ (hnd.filter _)
        intro x hx y hy hxy
        have : x.1 = y.1 := by rw [hfst x hx, hfst y hy]
        exact Prod.ext this hxy
      have hsubset : ((p.filter fun pr : Nat × Int => decide (pr.1 = v)).map
          Prod.snd) ⊆ dom v := by
        intro y hy
        obtain ⟨pr, hpr, rfl⟩ := List.mem_map.mp hy
        have := (hmem pr (List.mem_of_mem_filter hpr)).2
        rw [hfst pr hpr] at this
        exact this
      simpa using (List.subperm_of_subset hnd2 hsubset).length_le
    have h2 : (p.filter fun pr : Nat × Int => !decide (pr.1 = v)).length ≤
        (t.map fun v => (dom v).length).sum := by
      refine ih _ (hnd.filter _) ?_ fun u hu => hdomnd u (List.mem_cons_of_mem _ hu)
      intro pr hpr
      have hp := hmem pr (List.mem_of_mem_filter hpr)
      have hne : pr.1 ≠ v := by simpa using (List.mem_filter.mp hpr).2
      refine ⟨?_, hp.2⟩
      rcases List.mem_cons.mp hp.1 with h | h
      · exact absurd h hne
      · exact h
    simp only [List.map_cons, List.sum_cons]
    omega

/-! ## Agreement of the two source files on successful runs -/

theorem fcVals_eq {c : Constraint} {v : Nat} {st0 : State} :
    ∀ (vals : List Int) (st : State) (prune : List (Nat × Int)),
      Ext st0 prune st → (∀ x ∈ vals, x ∈ st.dom v) → vals.Nodup →
      ∀ r, Propagators1.fcVals c v vals st prune = .ok r →
        Propagators.fcVals c v vals st prune = .ok r := by
  intro vals
  induction vals with
  | nil =>
    intro st prune _ _ _ r h
    exact h
  | cons val rest ih =>
    intro st prune hext hvals hnd r h
    have hvmem : val ∈ st.dom v := hvals val (List.mem_cons_self _ _)
    have hnotp : (v, val) ∉ prune := ((ext_mem hext v val).mp hvmem).2
    cases hS : has_support st c v val with
    | true =>
      rw [fcVals1_cons_sup hS] at h
      rw [fcValsP_cons_skip (by simp [hS])]
      exact ih st prune hext (fun x hx => hvals x (List.mem_cons_of_mem _ hx))
        (List.nodup_cons.mp hnd).2 r h
    | false =>
      rw [fcVals1_cons_prune hS hnotp] at h
      by_cases hz : cur_domain_size (prune_value st v val) v = 0
      · rw [if_pos hz] at h
        cases h
      · rw [if_neg hz] at h
        rw [fcValsP_cons_prune hS hnotp]
        have hval_nin : val ∉ rest := (List.nodup_cons.mp hnd).1
        refine ih (prune_value st v val) (prune ++ [(v, val)]) (ext_step hext v val)
          ?_ (List.nodup_cons.mp hnd).2 r h
        intro x hx
        rw [prune_value_dom, if_pos rfl]
        refine List.mem_filter.mpr ⟨hvals x (List.mem_cons_of_mem _ hx), ?_⟩
        have : x ≠ val := fun heq => hval_nin (heq ▸ hx)
        simpa using this

theorem gacVals_eq {csp : CSP} {c : Constraint} {v : Nat} {st0 : State} :
    ∀ (vals : List Int) (st : State) (q : List Nat) (prune : List (Nat × Int)),
      Ext st0 prune st → (∀ x ∈ vals, x ∈ st.dom v) → vals.Nodup →
      ∀ r, Propagators1.gacVals csp c v vals st q prune = .ok r →
        Propagators.gacVals csp c v vals st q prune = .ok r := by
  intro vals
  induction vals with
  | nil =>
    intro st q prune _ _ _ r h
    exact h
  | cons val rest ih =>
    intro st q prune hext hvals hnd r h
    have hvmem : val ∈ st.dom v := hvals val (List.mem_cons_self _ _)
    have hnotp : (v, val) ∉ prune := ((ext_mem hext v val).mp hvmem).2
    cases hS : has_support st c v val with
    | true =>
      rw [gacVals1_cons_sup hS] at h
      rw [gacValsP_cons_skip (by simp [hS])]
      exact ih st q prune hext (fun x hx => hvals x (List.mem_cons_of_mem _ hx))
        (List.nodup_cons.mp hnd).2 r h
    | false =>
      rw [gacVals1_cons_prune hS hnotp] at h
      by_cases hz : cur_domain_size (prune_value st v val) v = 0
      · rw [if_pos hz] at h
        cases h
      · rw [if_neg hz] at h
        rw [gacValsP_cons_prune hS hnotp]
        have hval_nin : val ∉ rest := (List.nodup_cons.mp hnd).1
        refine ih (prune_value st v val) (gac_enqueue csp v q) (prune ++ [(v, val)])
          (ext_step hext v val) ?_ (List.nodup_cons.mp hnd).2 r h
        intro x hx
        rw [prune_value_dom, if_pos rfl]
        refine List.mem_filter.mpr ⟨hvals x (List.mem_cons_of_mem _ hx), ?_⟩
        have : x ≠ val := fun heq => hval_nin (heq ▸ hx)
        simpa using this

theorem gacScope_eq {csp : CSP} {c : Constraint} {st0 : State}
    (hwf0 : WFdom csp st0) :
    ∀ (vs : List Nat) (st : State) (q : List Nat) (prune : List (Nat × Int)),
      Ext st0 prune st → (∀ v ∈ vs, v ∈ scope_vars csp) →
      ∀ r, Propagators1.gacScope csp c vs st q prune = .ok r →
        Propagators.gacScope csp c vs st q prune = .ok r := by
  intro vs
  induction vs with
  | nil =>
    intro st q prune _ _ r h
    exact h
  | cons v vs ih =>
    intro st q prune hext hvs r h
    have hv : v ∈ scope_vars csp := hvs v (List.mem_cons_self _ _)
    have hnd : (cur_domain st v).Nodup := ext_nodup hext v (hwf0 v hv)
    rw [Propagators1.gacScope] at h
    cases hres : Propagators1.gacVals csp c v (cur_domain st v) st q prune with
    | error e =>
      rw [hres] at h
      cases h
    | ok o =>
      obtain ⟨stm, qm, prunem⟩ := o
      rw [hres] at h
      obtain ⟨_, _, hextm, _, _, _, _, _, _, _, _⟩ :=
        (gacVals1_master (c := c) (cur_domain st v) st q prune hext
          (fun x hx => hx) hnd).2 stm qm prunem hres
      have hresP := gacVals_eq (cur_domain st v) st q prune hext
        (fun x hx => hx) hnd (stm, qm, prunem) hres
      rw [Propagators.gacScope, hresP]
      exact ih stm qm prunem hextm (fun u hu => hvs u (List.mem_cons_of_mem _ hu)) r h

theorem gacLoop_eq {csp : CSP} {st0 : State} (hwf0 : WFdom csp st0) :
    ∀ (fuel : Nat) (st : State) (q : List Nat) (prune : List (Nat × Int)),
      Ext st0 prune st → (∀ j ∈ q, j < csp.cons.length) →
      ∀ r, Propagators1.gacLoop csp fuel st q prune = some r → r.1 = true →
        Propagators.gacLoop csp fuel st q prune = some r := by
  intro fuel
  induction fuel with
  | zero =>
    intro st q prune _ _ r h
    cases h
  | succ fuel ih =>
    intro st q prune hext hqb r h ht
    cases q with
    | nil => exact h
    | cons i rest =>
      have hiL : i < csp.cons.length := hqb i (List.mem_cons_self _ _)
      have hscopesub := scope_sub_scope_vars hiL
      rw [Propagators1.gacLoop] at h
      cases hres : Propagators1.gacScope csp (get_cons csp i) (get_cons csp i).scope
          st rest prune with
      | error e =>
        obtain ⟨ep, es⟩ := e
        rw [hres] at h
        rw [Option.some.injEq] at h
        rw [← h] at ht
        cases ht
      | ok o =>
        obtain ⟨st1, q1, p1⟩ := o
        rw [hres] at h
        obtain ⟨_, _, hext1, _, _, _, _, _, _, _, hqcases⟩ :=
          (gacScope1_master hwf0 _ st rest prune hext hscopesub).2 st1 q1 p1 hres
        have hq1b : ∀ j ∈ q1, j < csp.cons.length := by
          intro j hj
          rcases hqcases j hj with h' | h'
          · exact hqb j (List.mem_cons_of_mem _ h')
          · obtain ⟨u, _, hju⟩ := h'
            exact (mem_get_cons_with_var.mp hju).1
        have hresP := gacScope_eq hwf0 _ st rest prune hext hscopesub
          (st1, q1, p1) hres
        rw [Propagators.gacLoop, hresP]
        exact ih st1 q1 p1 hext1 hq1b r h ht

theorem fcCons_eq {csp : CSP} {st0 : State} (hwf0 : WFdom csp st0) :
    ∀ (L : List Nat) (st : State) (prune : List (Nat × Int)),
      Ext st0 prune st → (∀ i ∈ L, i < csp.cons.length) →
      ∀ r, Propagators1.fcCons csp L st prune = r → r.1 = true →
        Propagators.fcCons csp L st prune = r := by
  intro L
  induction L with
  | nil =>
    intro st prune _ _ r h _
    exact h
  | cons i rest ih =>
    intro st prune hext hL r h ht
    have hiL : i < csp.cons.length := hL i (List.mem_cons_self _ _)
    rw [Propagators1.fcCons] at h
    simp only [Propagators.fcCons]
    by_cases hn : get_n_unasgn st (get_cons csp i) = 1
    · rw [if_pos hn] at h
      rw [if_pos hn]
      have hv : (get_unasgn_vars st (get_cons csp i)).headD 0 ∈ scope_vars csp :=
        scope_sub_scope_vars hiL _ (headD_unasgn_mem_scope hn)
      have hnd : (cur_domain st ((get_unasgn_vars st (get_cons csp i)).headD 0)).Nodup :=
        ext_nodup hext _ (hwf0 _ hv)
      cases hres : Propagators1.fcVals (get_cons csp i)
          ((get_unasgn_vars st (get_cons csp i)).headD 0)
          (cur_domain st ((get_unasgn_vars st (get_cons csp i)).headD 0)) st prune with
      | error e =>
        obtain ⟨ep, es⟩ := e
        simp only [hres] at h
        rw [← h] at ht
        cases ht
      | ok o =>
        obtain ⟨op, os⟩ := o
        simp only [hres] at h
        obtain ⟨_, _, hextm, _, _⟩ :=
          fcVals1_master _ st prune hext (fun x hx => hx) hnd _ hres op os (Or.inr rfl)
        have hresP : Propagators.fcVals (get_cons csp i)
            ((get_unasgn_vars st (get_cons csp i)).headD 0)
            (cur_domain st ((get_unasgn_vars st (get_cons csp i)).headD 0)) st prune =
            .ok (op, os) :=
          fcVals_eq _ st prune hext (fun x hx => hx) hnd (op, os) hres
        rw [hresP]
        exact ih os op hextm (fun j hj => hL j (List.mem_cons_of_mem _ hj)) r h ht
    · rw [if_neg hn] at h
      rw [if_neg hn]
      exact ih st prune hext (fun j hj => hL j (List.mem_cons_of_mem _ hj)) r h ht

/-! ## The propagation algorithms as the specification words them

    These definitions follow the sentences of the claims (and spec
    sections 4.3 and 4.4) rather than the source lines; the theorems for C4
    and C5 prove the source equal to them. -/

/-- The scan selection and queue initialisation the specification
    prescribes: all constraints of the problem with no newly assigned
    variable, and exactly the constraints whose scope contains V with newly
    assigned variable V. -/
def specInitCons (csp : CSP) (newVar : Option Nat) : List Nat :=
  match newVar with
  | none => get_all_cons csp
  | some v => get_cons_with_var csp v

/-- FC value processing as the specification words it: for every value
    still in the current domain of the single unassigned variable, prune it
    exactly when the constraint has no support for it and it has not
    already been pruned in this call; a wipe out stops immediately with
    failure and the full record. -/
def fcSpecVals (c : Constraint) (v : Nat) :
    List Int → State → List (Nat × Int) →
      Except (List (Nat × Int) × State) (List (Nat × Int) × State)
  | [], st, pruned => .ok (pruned, st)
  | val :: rest, st, pruned =>
    if has_support st c v val = true ∨ (v, val) ∈ pruned then
      fcSpecVals c v rest st pruned
    else
      if cur_domain_size (prune_value st v val) v = 0 then
        .error (pruned ++ [(v, val)], prune_value st v val)
      else fcSpecVals c v rest (prune_value st v val) (pruned ++ [(v, val)])

/-- FC constraint scan as the specification words it: process exactly the
    scanned constraints with exactly one unassigned scope variable. -/
def fcSpecCons (csp : CSP) : List Nat → State → List (Nat × Int) →
    Bool × List (Nat × Int) × State
  | [], st, pruned => (true, pruned, st)
  | i :: rest, st, pruned =>
    if get_n_unasgn st (get_cons csp i) = 1 then
      match fcSpecVals (get_cons csp i) ((get_unasgn_vars st (get_cons csp i)).headD 0)
          (cur_domain st ((get_unasgn_vars st (get_cons csp i)).headD 0)) st pruned with
      | .error (pruned1, st1) => (false, pruned1, st1)
      | .ok (pruned1, st1) => fcSpecCons csp rest st1 pruned1
    else fcSpecCons csp rest st pruned

/-- Forward checking as the specification words it. -/
def fcSpec (csp : CSP) (newVar : Option Nat) (st : State) :
    Bool × List (Nat × Int) × State :=
  fcSpecCons csp (specInitCons csp newVar) st []

/-- GAC value processing as the specification words it: prune a value
    exactly when it has no support and was not already pruned in this
    call; a wipe out fails immediately with the accumulated record, and
    after each successful prune every constraint touching the variable that
    is not already present is appended to the queue. -/
def gacSpecVals (csp : CSP) (c : Constraint) (v : Nat) :
    List Int → State → List Nat → List (Nat × Int) →
      Except (List (Nat × Int) × State) (State × List Nat × List (Nat × Int))
  | [], st, q, pruned => .ok (st, q, pruned)
  | val :: rest, st, q, pruned =>
    if has_support st c v val = true ∨ (v, val) ∈ pruned then
      gacSpecVals csp c v rest st q pruned
    else
      if cur_domain_size (prune_value st v val) v = 0 then
        .error (pruned ++ [(v, val)], prune_value st v val)
      else gacSpecVals csp c v rest (prune_value st v val)
        (gac_enqueue csp v q) (pruned ++ [(v, val)])

/-- GAC scope processing as the specification words it: every variable in
    the scope of the popped constraint, every value of its current
    domain. -/
def gacSpecScope (csp : CSP) (c : Constraint) :
    List Nat → State → List Nat → List (Nat × Int) →
      Except (List (Nat × Int) × State) (State × List Nat × List (Nat × Int))
  | [], st, q, pruned => .ok (st, q, pruned)
  | v :: vs, st, q, pruned =>
    match gacSpecVals csp c v (cur_domain st v) st q pruned with
    | .error e => .error e
    | .ok (st1, q1, pruned1) => gacSpecScope csp c vs st1 q1 pruned1

/-- The GAC work loop as the specification words it: remove one constraint
    from the front of the queue (FIFO), process its scope, and continue
    until the queue is empty, at which point it succeeds with the
    accumulated pruning list. -/
def gacSpecLoop (csp : CSP) : Nat → State → List Nat → List (Nat × Int) →
    Option (Bool × List (Nat × Int) × State)
  | 0, _, _, _ => none
  | _ + 1, st, [], pruned => some (true, pruned, st)
  | fuel + 1, st, i :: rest, pruned =>
    match gacSpecScope csp (get_cons csp i) (get_cons csp i).scope st rest pruned with
    | .error (pruned1, st1) => some (false, pruned1, st1)
    | .ok (st1, q1, pruned1) => gacSpecLoop csp fuel st1 q1 pruned1

/-- Generalized arc consistency as the specification words it. -/
def gacSpec (csp : CSP) (newVar : Option Nat) (st : State) :
    Option (Bool × List (Nat × Int) × State) :=
  gacSpecLoop csp (gac_fuel csp st) st (specInitCons csp newVar) []

/-! ## The source loops equal the specification loops -/

theorem fcSpecVals_eq {c : Constraint} {v : Nat} {st0 : State} :
    ∀ (vals : List Int) (st : State) (prune : List (Nat × Int)),
      Ext st0 prune st → (∀ x ∈ vals, x ∈ st.dom v) → vals.Nodup →
      Propagators1.fcVals c v vals st prune = fcSpecVals c v vals st prune := by
  intro vals
  induction vals with
  | nil => intro st prune _ _ _; rfl
  | cons val rest ih =>
    intro st prune hext hvals hnd
    have hvmem : val ∈ st.dom v := hvals val (List.mem_cons_self _ _)
    have hnotp : (v, val) ∉ prune := ((ext_mem hext v val).mp hvmem).2
    cases hS : has_support st c v val with
    | true =>
      rw [fcVals1_cons_sup hS, fcSpecVals, if_pos (Or.inl hS)]
      exact ih st prune hext (fun x hx => hvals x (List.mem_cons_of_mem _ hx))
        (List.nodup_cons.mp hnd).2
    | false =>
      have hcond : ¬(has_support st c v val = true ∨ (v, val) ∈ prune) := by
        simp [hS, hnotp]
      rw [fcVals1_cons_prune hS hnotp]
      rw [fcSpecVals]
      rw [if_neg hcond]
      by_cases hz : cur_domain_size (prune_value st v val) v = 0
      · rw [if_pos hz]
        rw [if_pos hz]
      · rw [if_neg hz]
        rw [if_neg hz]
        have hval_nin : val ∉ rest := (List.nodup_cons.mp hnd).1
        refine ih (prune_value st v val) (prune ++ [(v, val)]) (ext_step hext v val)
          ?_ (List.nodup_cons.mp hnd).2
        intro x hx
        rw [prune_value_dom, if_pos rfl]
        refine List.mem_filter.mpr ⟨hvals x (List.mem_cons_of_mem _ hx), ?_⟩
        have : x ≠ val := fun heq => hval_nin (heq ▸ hx)
        simpa using this

theorem fcSpecCons_eq {csp : CSP} {st0 : State} (hwf0 : WFdom csp st0) :
    ∀ (L : List Nat) (st : State) (prune : List (Nat × Int)),
      Ext st0 prune st → (∀ i ∈ L, i < csp.cons.length) →
      Propagators1.fcCons csp L st prune = fcSpecCons csp L st prune := by
  intro L
  induction L with
  | nil => intro st prune _ _; rfl
  | cons i rest ih =>
    intro st prune hext hL
    have hiL : i < csp.cons.length := hL i (List.mem_cons_self _ _)
    simp only [Propagators1.fcCons, fcSpecCons]
    by_cases hn : get_n_unasgn st (get_cons csp i) = 1
    · rw [if_pos hn, if_pos hn]
      have hv : (get_unasgn_vars st (get_cons csp i)).headD 0 ∈ scope_vars csp :=
        scope_sub_scope_vars hiL _ (headD_unasgn_mem_scope hn)
      have hnd : (cur_domain st ((get_unasgn_vars st (get_cons csp i)).headD 0)).Nodup :=
        ext_nodup hext _ (hwf0 _ hv)
      have hEq : Propagators1.fcVals (get_cons csp i)
          ((get_unasgn_vars st (get_cons csp i)).headD 0)
          (cur_domain st ((get_unasgn_vars st (get_cons csp i)).headD 0)) st prune =
          fcSpecVals (get_cons csp i)
            ((get_unasgn_vars st (get_cons csp i)).headD 0)
            (cur_domain st ((get_unasgn_vars st (get_cons csp i)).headD 0)) st prune :=
        fcSpecVals_eq _ st prune hext (fun x hx => hx) hnd
      rw [hEq]
      cases hres : fcSpecVals (get_cons csp i)
          ((get_unasgn_vars st (get_cons csp i)).headD 0)
          (cur_domain st ((get_unasgn_vars st (get_cons csp i)).headD 0)) st prune with
      | error e => rfl
      | ok o =>
        obtain ⟨op, os⟩ := o
        have hres1 : Propagators1.fcVals (get_cons csp i)
            ((get_unasgn_vars st (get_cons csp i)).headD 0)
            (cur_domain st ((get_unasgn_vars st (get_cons csp i)).headD 0)) st prune =
            .ok (op, os) := by
          rw [hEq, hres]
        obtain ⟨_, _, hextm, _, _⟩ :=
          fcVals1_master _ st prune hext (fun x hx => hx) hnd _ hres1 op os (Or.inr rfl)
        exact ih os op hextm fun j hj => hL j (List.mem_cons_of_mem _ hj)
    · rw [if_neg hn, if_neg hn]
      exact ih st prune hext fun j hj => hL j (List.mem_cons_of_mem _ hj)

theorem gacSpecVals_eq {csp : CSP} {c : Constraint} {v : Nat} {st0 : State} :
    ∀ (vals : List Int) (st : State) (q : List Nat) (prune : List (Nat × Int)),
      Ext st0 prune st → (∀ x ∈ vals, x ∈ st.dom v) → vals.Nodup →
      Propagators1.gacVals csp c v vals st q prune =
        gacSpecVals csp c v vals st q prune := by
  intro vals
  induction vals with
  | nil => intro st q prune _ _ _; rfl
  | cons val rest ih =>
    intro st q prune hext hvals hnd
    have hvmem : val ∈ st.dom v := hvals val (List.mem_cons_self _ _)
    have hnotp : (v, val) ∉ prune := ((ext_mem hext v val).mp hvmem).2
    cases hS : has_support st c v val with
    | true =>
      rw [gacVals1_cons_sup hS, gacSpecVals, if_pos (Or.inl hS)]
      exact ih st q prune hext (fun x hx => hvals x (List.mem_cons_of_mem _ hx))
        (List.nodup_cons.mp hnd).2
    | false =>
      have hcond : ¬(has_support st c v val = true ∨ (v, val) ∈ prune) := by
        simp [hS, hnotp]
      rw [gacVals1_cons_prune hS hnotp]
      rw [gacSpecVals]
      rw [if_neg hcond]
      by_cases hz : cur_domain_size (prune_value st v val) v = 0
      · rw [if_pos hz]
        rw [if_pos hz]
      · rw [if_neg hz]
        rw [if_neg hz]
        have hval_nin : val ∉ rest := (List.nodup_cons.mp hnd).1
        refine ih (prune_value st v val) (gac_enqueue csp v q) (prune ++ [(v, val)])
          (ext_step hext v val) ?_ (List.nodup_cons.mp hnd).2
        intro x hx
        rw [prune_value_dom, if_pos rfl]
        refine List.mem_filter.mpr ⟨hvals x (List.mem_cons_of_mem _ hx), ?_⟩
        have : x ≠ val := fun heq => hval_nin (heq ▸ hx)
        simpa using this

theorem gacSpecScope_eq {csp : CSP} {c : Constraint} {st0 : State}
    (hwf0 : WFdom csp st0) :
    ∀ (vs : List Nat) (st : State) (q : List Nat) (prune : List (Nat × Int)),
      Ext st0 prune st → (∀ v ∈ vs, v ∈ scope_vars csp) →
      Propagators1.gacScope csp c vs st q prune =
        gacSpecScope csp c vs st q prune := by
  intro vs
  induction vs with
  | nil => intro st q prune _ _; rfl
  | cons v vs ih =>
    intro st q prune hext hvs
    have hv : v ∈ scope_vars csp := hvs v (List.mem_cons_self _ _)
    have hnd : (cur_domain st v).Nodup := ext_nodup hext v (hwf0 v hv)
    have hEq : Propagators1.gacVals csp c v (cur_domain st v) st q prune =
        gacSpecVals csp c v (cur_domain st v) st q prune :=
      gacSpecVals_eq (cur_domain st v) st q prune hext (fun x hx => hx) hnd
    rw [Propagators1.gacScope, gacSpecScope, hEq]
    cases hres : gacSpecVals csp c v (cur_domain st v) st q prune with
    | error e => rfl
    | ok o =>
      obtain ⟨stm, qm, prunem⟩ := o
      have hres1 : Propagators1.gacVals csp c v (cur_domain st v) st q prune =
          .ok (stm, qm, prunem) := by
        rw [hEq, hres]
      obtain ⟨_, _, hextm, _, _, _, _, _, _, _, _⟩ :=
        (gacVals1_master (c := c) (cur_domain st v) st q prune hext
          (fun x hx => hx) hnd).2 stm qm prunem hres1
      exact ih stm qm prunem hextm fun u hu => hvs u (List.mem_cons_of_mem _ hu)

theorem gacSpecLoop_eq {csp : CSP} {st0 : State} (hwf0 : WFdom csp st0) :
    ∀ (fuel : Nat) (st : State) (q : List Nat) (prune : List (Nat × Int)),
      Ext st0 prune st → (∀ j ∈ q, j < csp.cons.length) →
      Propagators1.gacLoop csp fuel st q prune = gacSpecLoop csp fuel st q prune := by
  intro fuel
  induction fuel with
  | zero => intro st q prune _ _; rfl
  | succ fuel ih =>
    intro st q prune hext hqb
    cases q with
    | nil => rfl
    | cons i rest =>
      have hiL : i < csp.cons.length := hqb i (List.mem_cons_self _ _)
      have hscopesub := scope_sub_scope_vars hiL
      rw [Propagators1.gacLoop, gacSpecLoop,
        gacSpecScope_eq hwf0 _ st rest prune hext hscopesub]
      cases hres : gacSpecScope csp (get_cons csp i) (get_cons csp i).scope
          st rest prune with
      | error e => rfl
      | ok o =>
        obtain ⟨st1, q1, p1⟩ := o
        have hres1 : Propagators1.gacScope csp (get_cons csp i)
            (get_cons csp i).scope st rest prune = .ok (st1, q1, p1) := by
          rw [gacSpecScope_eq hwf0 _ st rest prune hext hscopesub, hres]
        obtain ⟨_, _, hext1, _, _, _, _, _, _, _, hqcases⟩ :=
          (gacScope1_master hwf0 _ st rest prune hext hscopesub).2 st1 q1 p1 hres1
        have hq1b : ∀ j ∈ q1, j < csp.cons.length := by
          intro j hj
          rcases hqcases j hj with h' | h'
          · exact hqb j (List.mem_cons_of_mem _ h')
          · obtain ⟨u, _, hju⟩ := h'
            exact (mem_get_cons_with_var.mp hju).1
        exact ih st1 q1 p1 hext1 hq1b

/-! ## Forward checking prunes only pairs a successful GAC run prunes -/

theorem ext_stle {st0 st stG : State} {S prune : List (Nat × Int)}
    (hext : Ext st0 prune st) (hextG : Ext st0 S stG)
    (hsub : ∀ pr ∈ prune, pr ∈ S) : StLE stG st := by
  constructor
  · rw [hextG.1, hext.1]
  · intro w x hx
    have hm := (ext_mem hextG w x).mp hx
    exact (ext_mem hext w x).mpr ⟨hm.1, fun hmem => hm.2 (hsub _ hmem)⟩

theorem fcVals_sub {c : Constraint} {v : Nat} {st0 stG : State}
    {S : List (Nat × Int)} (hextG : Ext st0 S stG)
    (hsupG : ∀ x ∈ stG.dom v, has_support stG c v x = true) :
    ∀ (vals : List Int) (st : State) (prune : List (Nat × Int)),
      Ext st0 prune st → (∀ x ∈ vals, x ∈ st.dom v) → vals.Nodup →
      (∀ pr ∈ prune, pr ∈ S) →
      ∀ res, Propagators1.fcVals c v vals st prune = res →
        ∀ p1 s1, (res = .error (p1, s1) ∨ res = .ok (p1, s1)) →
          ∀ pr ∈ p1, pr ∈ S := by
  intro vals
  induction vals with
  | nil =>
    intro st prune _ _ _ hsub res hres p1 s1 hcases pr hpr
    have hp1 : p1 = prune := by
      rcases hcases with h | h <;> rw [← hres] at h
      · simp [Propagators1.fcVals] at h
      · simp only [Propagators1.fcVals, Except.ok.injEq, Prod.mk.injEq] at h
        exact h.1.symm
    rw [hp1] at hpr
    exact hsub pr hpr
  | cons val rest ih =>
    intro st prune hext hvals hnd hsub res hres p1 s1 hcases pr hpr
    have hvmem : val ∈ st.dom v := hvals val (List.mem_cons_self _ _)
    have hmem0 := (ext_mem hext v val).mp hvmem
    have hnotp : (v, val) ∉ prune := hmem0.2
    cases hS : has_support st c v val with
    | true =>
      rw [fcVals1_cons_sup hS] at hres
      exact ih st prune hext (fun x hx => hvals x (List.mem_cons_of_mem _ hx))
        (List.nodup_cons.mp hnd).2 hsub res hres p1 s1 hcases pr hpr
    | false =>
      have hvalS : (v, val) ∈ S := by
        by_contra hvs
        have hG : val ∈ stG.dom v := (ext_mem hextG v val).mpr ⟨hmem0.1, hvs⟩
        have := has_support_mono (ext_stle hext hextG hsub) c v val (hsupG val hG)
        rw [hS] at this
        cases this
      have hsub' : ∀ pr ∈ prune ++ [(v, val)], pr ∈ S := by
        intro pr hpr'
        rcases List.mem_append.mp hpr' with h | h
        · exact hsub pr h
        · rw [List.mem_singleton.mp h]
          exact hvalS
      rw [fcVals1_cons_prune hS hnotp] at hres
      by_cases hz : cur_domain_size (prune_value st v val) v = 0
      · rw [if_pos hz] at hres
        have hp1 : p1 = prune ++ [(v, val)] := by
          rcases hcases with h | h <;> rw [← hres] at h
          · simp only [Except.error.injEq, Prod.mk.injEq] at h
            exact h.1.symm
          · cases h
        rw [hp1] at hpr
        exact hsub' pr hpr
      · rw [if_neg hz] at hres
        have hval_nin : val ∉ rest := (List.nodup_cons.mp hnd).1
        refine ih (prune_value st v val) (prune ++ [(v, val)]) (ext_step hext v val)
          ?_ (List.nodup_cons.mp hnd).2 hsub' res hres p1 s1 hcases pr hpr
        intro x hx
        rw [prune_value_dom, if_pos rfl]
        refine List.mem_filter.mpr ⟨hvals x (List.mem_cons_of_mem _ hx), ?_⟩
        have : x ≠ val := fun heq => hval_nin (heq ▸ hx)
        simpa using this

theorem fcCons_sub {csp : CSP} {st0 stG : State} {S : List (Nat × Int)}
    (hwf0 : WFdom csp st0) (hextG : Ext st0 S stG) :
    ∀ (L : List Nat) (st : State) (prune : List (Nat × Int)),
      Ext st0 prune st → (∀ i ∈ L, i < csp.cons.length) →
      (∀ i ∈ L, ConsistentC csp stG i) →
      (∀ pr ∈ prune, pr ∈ S) →
      ∀ b p1 s1, Propagators1.fcCons csp L st prune = (b, p1, s1) →
        ∀ pr ∈ p1, pr ∈ S := by
  intro L
  induction L with
  | nil =>
    intro st prune _ _ _ hsub b p1 s1 h pr hpr
    simp only [Propagators1.fcCons, Prod.mk.injEq] at h
    rw [← h.2.1] at hpr
    exact hsub pr hpr
  | cons i rest ih =>
    intro st prune hext hL hcons hsub b p1 s1 h pr hpr
    have hiL : i < csp.cons.length := hL i (List.mem_cons_self _ _)
    rw [Propagators1.fcCons] at h
    by_cases hn : get_n_unasgn st (get_cons csp i) = 1
    · rw [if_pos hn] at h
      have hvscope : (get_unasgn_vars st (get_cons csp i)).headD 0 ∈
          (get_cons csp i).scope := headD_unasgn_mem_scope hn
      have hv : (get_unasgn_vars st (get_cons csp i)).headD 0 ∈ scope_vars csp :=
        scope_sub_scope_vars hiL _ hvscope
      have hnd : (cur_domain st ((get_unasgn_vars st (get_cons csp i)).headD 0)).Nodup :=
        ext_nodup hext _ (hwf0 _ hv)
      have hsupG : ∀ x ∈ stG.dom ((get_unasgn_vars st (get_cons csp i)).headD 0),
          has_support stG (get_cons csp i)
            ((get_unasgn_vars st (get_cons csp i)).headD 0) x = true :=
        hcons i (List.mem_cons_self _ _) _ hvscope
      cases hres : Propagators1.fcVals (get_cons csp i)
          ((get_unasgn_vars st (get_cons csp i)).headD 0)
          (cur_domain st ((get_unasgn_vars st (get_cons csp i)).headD 0)) st prune with
      | error e =>
        obtain ⟨ep, es⟩ := e
        simp only [hres, Prod.mk.injEq] at h
        rw [← h.2.1] at hpr
        exact fcVals_sub hextG hsupG _ st prune hext (fun x hx => hx) hnd hsub
          _ hres ep es (Or.inl rfl) pr hpr
      | ok o =>
        obtain ⟨op, os⟩ := o
        simp only [hres] at h
        obtain ⟨_, _, hextm, _, _⟩ :=
          fcVals1_master _ st prune hext (fun x hx => hx) hnd _ hres op os (Or.inr rfl)
        have hsubm : ∀ pr ∈ op, pr ∈ S :=
          fcVals_sub hextG hsupG _ st prune hext (fun x hx => hx) hnd hsub
            _ hres op os (Or.inr rfl)
        exact ih os op hextm (fun j hj => hL j (List.mem_cons_of_mem _ hj))
          (fun j hj => hcons j (List.mem_cons_of_mem _ hj)) hsubm b p1 s1 h pr hpr
    · rw [if_neg hn] at h
      exact ih st prune hext (fun j hj => hL j (List.mem_cons_of_mem _ hj))
        (fun j hj => hcons j (List.mem_cons_of_mem _ hj)) hsub b p1 s1 h pr hpr

/-! ## Concrete instances used by witnesses and counterexamples -/

/-- The wipe-out instance of spec.md section 8: one constraint over scope
    (X, Y) with the single satisfying tuple (1, 2); X (variable 0) is
    assigned 1 with current domain [1], Y (variable 1) is unassigned with
    current domain [3]. -/
def exW : CSP := ⟨[0, 1], [⟨[0, 1], [[1, 2]]⟩]⟩

/-- The state of the wipe-out instance. -/
def exWSt : State :=
  { dom := fun v => if v = 0 then [1] else if v = 1 then [3] else []
    assigned := fun v => if v = 0 then some 1 else none }

/-- A satisfiable variant: Y (variable 1) has current domain [2, 3], so
    propagation prunes (1, 3) and succeeds. -/
def exC : CSP := ⟨[0, 1], [⟨[0, 1], [[1, 2]]⟩]⟩

/-- The state of the satisfiable instance. -/
def exCSt : State :=
  { dom := fun v => if v = 0 then [1] else if v = 1 then [2, 3] else []
    assigned := fun v => if v = 0 then some 1 else none }

/-- Variables with current domain sizes 3, 1 and 2 in registration order;
    the middle one is even assigned, since the heuristic scans every
    variable of the problem, not only the unassigned ones. -/
def exM : CSP := ⟨[0, 1, 2], []⟩

/-- The state of the MRV instance with domain sizes 3, 1, 2. -/
def exMSt : State :=
  { dom := fun v => if v = 0 then [1, 2, 3] else if v = 1 then [5] else
      if v = 2 then [7, 8] else []
    assigned := fun v => if v = 1 then some 5 else none }

/-- Two variables with the tied current domain sizes 2 and 2. -/
def exM2 : CSP := ⟨[0, 1], []⟩

/-- The state of the tied MRV instance. -/
def exM2St : State :=
  { dom := fun v => if v = 0 then [4, 5] else if v = 1 then [6, 7] else []
    assigned := fun _ => none }

/-! ## The minimum remaining values fold -/

theorem mrv_fold_aux (st : State) :
    ∀ (l : List Nat) (b : Nat),
      ∃ r, l.foldl
          (fun ret_var v =>
            match ret_var with
            | none => some v
            | some best =>
              if cur_domain_size st best > cur_domain_size st v then some v
              else ret_var)
          (some b) = some r ∧
        ((r = b ∧ ∀ w ∈ l, cur_domain_size st w ≥ cur_domain_size st b) ∨
          (∃ l1 l2, l = l1 ++ r :: l2 ∧
            cur_domain_size st r < cur_domain_size st b ∧
            (∀ w ∈ l1, cur_domain_size st w > cur_domain_size st r) ∧
            (∀ w ∈ l2, cur_domain_size st w ≥ cur_domain_size st r))) := by
  intro l
  induction l with
  | nil => exact fun b => ⟨b, rfl, Or.inl ⟨rfl, by simp⟩⟩
  | cons a t ih =>
    intro b
    simp only [List.foldl_cons]
    by_cases hab : cur_domain_size st b > cur_domain_size st a
    · rw [if_pos hab]
      obtain ⟨r, hr, hcase⟩ := ih a
      refine ⟨r, hr, Or.inr ?_⟩
      rcases hcase with ⟨rfl, hall⟩ | ⟨l1, l2, hsplit, hlt, h1, h2⟩
      · exact ⟨[], t, rfl, hab, by simp, hall⟩
      · refine ⟨a :: l1, l2, by rw [hsplit]; rfl, Nat.lt_trans hlt hab, ?_, h2⟩
        intro w hw
        rcases List.mem_cons.mp hw with rfl | hw'
        · exact hlt
        · exact h1 w hw'
    · rw [if_neg hab]
      obtain ⟨r, hr, hcase⟩ := ih b
      refine ⟨r, hr, ?_⟩
      rcases hcase with ⟨rfl, hall⟩ | ⟨l1, l2, hsplit, hlt, h1, h2⟩
      · refine Or.inl ⟨rfl, fun w hw => ?_⟩
        rcases List.mem_cons.mp hw with rfl | hw'
        · omega
        · exact hall w hw'
      · refine Or.inr ⟨a :: l1, l2, by rw [hsplit]; rfl, hlt, ?_, h2⟩
        intro w hw
        rcases List.mem_cons.mp hw with rfl | hw'
        · omega
        · exact h1 w hw'

/-! ## Claim theorems -/

/-- C1 (code bug in propagators.py): on the wipe-out instance, pruning
    (Y, 3) empties the current domain of Y, yet `prop_FC` of propagators.py
    returns success, because its wipe-out test compares the bound method
    `cur_domain_size` itself (missing call parentheses) with 0, which is
    always false in Python; `prop_FC` of propagators1.py, whose test calls
    the method, fails immediately with the same pruning list, as the claim
    and the module docstring require. -/
theorem C1_fc_wipeout_bug :
    (Propagators.prop_FC exW (some 0) exWSt).1 = true ∧
    (Propagators.prop_FC exW (some 0) exWSt).2.1 = [(1, 3)] ∧
    cur_domain_size (Propagators.prop_FC exW (some 0) exWSt).2.2 1 = 0 ∧
    (Propagators1.prop_FC exW (some 0) exWSt).1 = false ∧
    (Propagators1.prop_FC exW (some 0) exWSt).2.1 = [(1, 3)] ∧
    cur_domain_size (Propagators1.prop_FC exW (some 0) exWSt).2.2 1 = 0 := by
  refine ⟨rfl, rfl, rfl, rfl, rfl, rfl⟩

/-- C2 (code bug in propagators.py): on the wipe-out instance, `prop_GAC`
    of propagators.py prunes (X, 1), wiping out the domain of X, but the
    broken wipe-out test (missing call parentheses) never fires, so it
    keeps pruning and returns success with both pairs and two empty
    domains; `prop_GAC` of propagators1.py fails immediately at the first
    wipe out, returning exactly the accumulated list. -/
theorem C2_gac_wipeout_bug :
    ((Propagators.prop_GAC exW (some 0) exWSt).map fun r => (r.1, r.2.1)) =
      some (true, [(0, 1), (1, 3)]) ∧
    ((Propagators.prop_GAC exW (some 0) exWSt).map fun r =>
      cur_domain_size r.2.2 0) = some 0 ∧
    ((Propagators1.prop_GAC exW (some 0) exWSt).map fun r => (r.1, r.2.1)) =
      some (false, [(0, 1)]) ∧
    ((Propagators1.prop_GAC exW (some 0) exWSt).map fun r =>
      cur_domain_size r.2.2 0) = some 0 := by
  refine ⟨rfl, rfl, rfl, rfl⟩

/-- The two source files contain character for character identical
    definitions of the plain backtracking scan. -/
theorem btCheckCons_eq (csp : CSP) (st : State) :
    ∀ L, Propagators1.btCheckCons csp st L = Propagators.btCheckCons csp st L := by
  intro L
  induction L with
  | nil => rfl
  | cons i rest ih =>
    simp only [Propagators1.btCheckCons, Propagators.btCheckCons]
    rw [ih]

/-- The two source files contain identical definitions of `prop_BT`. -/
theorem prop_BT_eq : Propagators1.prop_BT = Propagators.prop_BT := by
  funext csp newVar st
  cases newVar with
  | none => rfl
  | some v =>
    show (Propagators1.btCheckCons csp st (get_cons_with_var csp v), [], st) =
      (Propagators.btCheckCons csp st (get_cons_with_var csp v), [], st)
    rw [btCheckCons_eq]

/-- The constraint scan of plain backtracking returns false exactly when
    some scanned constraint is fully instantiated and its check fails on
    the tuple of assigned values. -/
theorem btCheckCons_false_iff (csp : CSP) (st : State) :
    ∀ L : List Nat, Propagators.btCheckCons csp st L = false ↔
      ∃ i ∈ L, get_n_unasgn st (get_cons csp i) = 0 ∧
        check (get_cons csp i)
          ((get_cons csp i).scope.map fun w => (get_assigned_value st w).getD 0) =
          false := by
  intro L
  induction L with
  | nil => simp [Propagators.btCheckCons]
  | cons i rest ih =>
    simp only [Propagators.btCheckCons]
    by_cases hn : get_n_unasgn st (get_cons csp i) = 0
    · rw [if_pos hn]
      cases hc : check (get_cons csp i)
          ((get_cons csp i).scope.map fun w => (get_assigned_value st w).getD 0) with
      | true =>
        rw [if_pos rfl]
        constructor
        · intro h
          obtain ⟨j, hj, hjn, hjc⟩ := ih.mp h
          exact ⟨j, List.mem_cons_of_mem _ hj, hjn, hjc⟩
        · intro ⟨j, hj, hjn, hjc⟩
          rcases List.mem_cons.mp hj with rfl | hj'
          · rw [hc] at hjc; cases hjc
          · exact ih.mpr ⟨j, hj', hjn, hjc⟩
      | false =>
        rw [if_neg (by simp)]
        constructor
        · intro _
          exact ⟨i, List.mem_cons_self _ _, hn, hc⟩
        · intro _
          rfl
    · rw [if_neg hn]
      constructor
      · intro h
        obtain ⟨j, hj, hjn, hjc⟩ := ih.mp h
        exact ⟨j, List.mem_cons_of_mem _ hj, hjn, hjc⟩
      · intro ⟨j, hj, hjn, hjc⟩
        rcases List.mem_cons.mp hj with rfl | hj'
        · exact absurd hjn hn
        · exact ih.mpr ⟨j, hj', hjn, hjc⟩

/-- C6: plain backtracking, in both files, never prunes and never changes
    the state; with no newly assigned variable it always succeeds, and with
    newly assigned variable V it fails exactly when some constraint
    touching V with zero unassigned scope variables fails its check on the
    tuple of assigned scope values in scope order. -/
theorem C6_bt_characterization (csp : CSP) (v : Nat) (st : State) :
    Propagators.prop_BT csp none st = (true, [], st) ∧
    Propagators1.prop_BT csp none st = (true, [], st) ∧
    ((Propagators.prop_BT csp (some v) st).1 = false ↔
      ∃ i ∈ get_cons_with_var csp v, get_n_unasgn st (get_cons csp i) = 0 ∧
        check (get_cons csp i)
          ((get_cons csp i).scope.map fun w => (get_assigned_value st w).getD 0) =
          false) ∧
    (Propagators.prop_BT csp (some v) st).2.1 = [] ∧
    (Propagators.prop_BT csp (some v) st).2.2 = st ∧
    Propagators1.prop_BT csp (some v) st = Propagators.prop_BT csp (some v) st := by
  exact ⟨rfl, rfl, btCheckCons_false_iff csp st (get_cons_with_var csp v), rfl, rfl,
    congrFun (congrFun (congrFun prop_BT_eq csp) (some v)) st⟩

/-- C8: the MRV heuristic is the same pure function in both files, scans
    every variable of the problem (assigned or not), and on a nonempty
    variable list returns the first variable attaining the minimum current
    domain size; at the concrete domain sizes 3, 1, 2 it returns the second
    variable, and at the tie 2, 2 it returns the first. -/
theorem C8_mrv_first_min (csp : CSP) (st : State) (hne : csp.vars ≠ []) :
    Propagators.ord_mrv = Propagators1.ord_mrv ∧
    (∃ v l1 l2, Propagators.ord_mrv csp st = some v ∧
      csp.vars = l1 ++ v :: l2 ∧
      (∀ w ∈ l1, cur_domain_size st w > cur_domain_size st v) ∧
      (∀ w ∈ l2, cur_domain_size st w ≥ cur_domain_size st v)) ∧
    Propagators.ord_mrv exM exMSt = some 1 ∧
    Propagators.ord_mrv exM2 exM2St = some 0 := by
  refine ⟨rfl, ?_, rfl, rfl⟩
  cases hv : csp.vars with
  | nil => exact absurd hv hne
  | cons v0 rest =>
    obtain ⟨r, hr, hcase⟩ := mrv_fold_aux st rest v0
    have hfold : Propagators.ord_mrv csp st = some r := by
      unfold Propagators.ord_mrv get_all_vars
      rw [hv]
      simpa using hr
    rcases hcase with ⟨rfl, hall⟩ | ⟨l1, l2, hsplit, hlt, h1, h2⟩
    · exact ⟨r, [], rest, hfold, by rw [List.nil_append], by simp, hall⟩
    · refine ⟨r, v0 :: l1, l2, hfold, by rw [hsplit]; rfl, ?_, h2⟩
      intro w hw
      rcases List.mem_cons.mp hw with rfl | hw'
      · exact hlt
      · exact h1 w hw'

/-- Witness for C8 at the concrete MRV instance. -/
theorem C8_mrv_first_min_witness :
    exM.vars ≠ [] ∧
    ∃ v l1 l2, Propagators.ord_mrv exM exMSt = some v ∧
      exM.vars = l1 ++ v :: l2 ∧
      (∀ w ∈ l1, cur_domain_size exMSt w > cur_domain_size exMSt v) ∧
      (∀ w ∈ l2, cur_domain_size exMSt w ≥ cur_domain_size exMSt v) :=
  ⟨by decide, (C8_mrv_first_min exM exMSt (by decide)).2.1⟩

/-- C3 counterexample: on the wipe-out instance of spec section 8 the two
    source files return different success flags from the same forward
    checking call, so they do not compute the same function. -/
theorem C3_files_differ_cex :
    (Propagators.prop_FC exW (some 0) exWSt).1 ≠
      (Propagators1.prop_FC exW (some 0) exWSt).1 := by
  decide

/-- C3 (amended): prop_BT and ord_mrv coincide exactly between the two
    files; prop_FC and prop_GAC coincide, with identical results and
    identical prunings, on every call on which the propagators1.py version
    succeeds, which is every call without a domain wipe out; only the
    behaviour at a wipe out differs (see C1 and C2). -/
theorem C3_files_agree_on_success (csp : CSP) (newVar : Option Nat) (st : State)
    (hwf : WFdom csp st) :
    Propagators.prop_BT = Propagators1.prop_BT ∧
    Propagators.ord_mrv = Propagators1.ord_mrv ∧
    (∀ r, Propagators1.prop_FC csp newVar st = r → r.1 = true →
      Propagators.prop_FC csp newVar st = r) ∧
    (∀ r, Propagators1.prop_GAC csp newVar st = some r → r.1 = true →
      Propagators.prop_GAC csp newVar st = some r) := by
  refine ⟨prop_BT_eq.symm, rfl, ?_, ?_⟩
  · intro r h ht
    cases newVar with
    | none =>
      exact fcCons_eq hwf (get_all_cons csp) st [] (ext_refl st)
        (fun i hi => mem_get_all_cons.mp hi) r h ht
    | some v =>
      exact fcCons_eq hwf (get_cons_with_var csp v) st [] (ext_refl st)
        (fun i hi => (mem_get_cons_with_var.mp hi).1) r h ht
  · intro r h ht
    cases newVar with
    | none =>
      exact gacLoop_eq hwf (gac_fuel csp st) st (get_all_cons csp) [] (ext_refl st)
        (fun i hi => mem_get_all_cons.mp hi) r h ht
    | some v =>
      exact gacLoop_eq hwf (gac_fuel csp st) st (get_cons_with_var csp v) []
        (ext_refl st) (fun i hi => (mem_get_cons_with_var.mp hi).1) r h ht

/-- Witness for C3 at the concrete satisfiable instance: the successful
    propagators1.py forward checking run is reproduced by propagators.py. -/
theorem C3_files_agree_on_success_witness :
    Propagators.prop_FC exC none exCSt =
      (true, [((1 : Nat), (3 : Int))], prune_value exCSt 1 3) :=
  (C3_files_agree_on_success exC none exCSt (by decide)).2.2.1
    (true, [(1, 3)], prune_value exCSt 1 3) rfl rfl

/-- C4: the GAC propagator of propagators1.py is, call for call, exactly
    the queue algorithm the claim describes: queue initialised with all
    constraints (no newly assigned variable) or with the constraints
    touching V, FIFO processing, re-enqueueing of the constraints touching
    a pruned variable that are not already present after each non wipe-out
    prune, success with the accumulated list once the queue is empty, and
    immediate failure on a wipe out.  The propagators.py version computes
    the same on every run of that algorithm that succeeds (its wipe-out
    handling differs, see C2). -/
theorem C4_gac_matches_spec (csp : CSP) (newVar : Option Nat) (st : State)
    (hwf : WFdom csp st) :
    Propagators1.prop_GAC csp newVar st = gacSpec csp newVar st ∧
    (∀ r, gacSpec csp newVar st = some r → r.1 = true →
      Propagators.prop_GAC csp newVar st = some r) := by
  have h1 : Propagators1.prop_GAC csp newVar st = gacSpec csp newVar st := by
    cases newVar with
    | none =>
      exact gacSpecLoop_eq hwf (gac_fuel csp st) st (get_all_cons csp) []
        (ext_refl st) fun i hi => mem_get_all_cons.mp hi
    | some v =>
      exact gacSpecLoop_eq hwf (gac_fuel csp st) st (get_cons_with_var csp v) []
        (ext_refl st) fun i hi => (mem_get_cons_with_var.mp hi).1
  refine ⟨h1, ?_⟩
  intro r h ht
  rw [← h1] at h
  cases newVar with
  | none =>
    exact gacLoop_eq hwf (gac_fuel csp st) st (get_all_cons csp) [] (ext_refl st)
      (fun i hi => mem_get_all_cons.mp hi) r h ht
  | some v =>
    exact gacLoop_eq hwf (gac_fuel csp st) st (get_cons_with_var csp v) []
      (ext_refl st) (fun i hi => (mem_get_cons_with_var.mp hi).1) r h ht

/-- Witness for C4 at the concrete satisfiable instance. -/
theorem C4_gac_matches_spec_witness :
    Propagators1.prop_GAC exC none exCSt = gacSpec exC none exCSt :=
  (C4_gac_matches_spec exC none exCSt (by decide)).1

/-- C5: the forward checking propagator of propagators1.py is, call for
    call, exactly the scan the claim describes: it scans all constraints
    (no newly assigned variable) or the constraints touching V, processes
    exactly the scanned constraints with exactly one unassigned scope
    variable U, and prunes (U, val) for a value still in the current domain
    of U exactly when the constraint has no support for it and the pair is
    not already recorded.  The propagators.py version computes the same on
    every run of that scan that succeeds (its wipe-out handling differs,
    see C1). -/
theorem C5_fc_matches_spec (csp : CSP) (newVar : Option Nat) (st : State)
    (hwf : WFdom csp st) :
    Propagators1.prop_FC csp newVar st = fcSpec csp newVar st ∧
    (∀ r, fcSpec csp newVar st = r → r.1 = true →
      Propagators.prop_FC csp newVar st = r) := by
  have h1 : Propagators1.prop_FC csp newVar st = fcSpec csp newVar st := by
    cases newVar with
    | none =>
      exact fcSpecCons_eq hwf (get_all_cons csp) st [] (ext_refl st)
        fun i hi => mem_get_all_cons.mp hi
    | some v =>
      exact fcSpecCons_eq hwf (get_cons_with_var csp v) st [] (ext_refl st)
        fun i hi => (mem_get_cons_with_var.mp hi).1
  refine ⟨h1, ?_⟩
  intro r h ht
  rw [← h1] at h
  cases newVar with
  | none =>
    exact fcCons_eq hwf (get_all_cons csp) st [] (ext_refl st)
      (fun i hi => mem_get_all_cons.mp hi) r h ht
  | some v =>
    exact fcCons_eq hwf (get_cons_with_var csp v) st [] (ext_refl st)
      (fun i hi => (mem_get_cons_with_var.mp hi).1) r h ht

/-- Witness for C5 at the concrete satisfiable instance. -/
theorem C5_fc_matches_spec_witness :
    Propagators1.prop_FC exC none exCSt = fcSpec exC none exCSt :=
  (C5_fc_matches_spec exC none exCSt (by decide)).1

/-- C9 counterexample: on the wipe-out instance of spec section 8 the GAC
    call fails after its first prune and returns only [(X, 1)], while the
    forward checking call on the same state prunes (Y, 3); the pair (Y, 3)
    is not in the GAC pruning list, so GAC pruning is not a superset of FC
    pruning for this call. -/
theorem C9_gac_not_superset_cex :
    ((Propagators1.prop_GAC exW none exWSt).map fun r => r.2.1) = some [(0, 1)] ∧
    (Propagators1.prop_FC exW none exWSt).2.1 = [(1, 3)] ∧
    ((1 : Nat), (3 : Int)) ∉ [((0 : Nat), (1 : Int))] := by
  exact ⟨rfl, rfl, by decide⟩

/-- C9 (amended): whenever the GAC call of propagators1.py succeeds, its
    pruning list contains every pair that the forward checking call of
    propagators1.py on the same state with the same argument prunes; only
    early failure of GAC on a domain wipe out can lose FC prunings. -/
theorem C9_gac_superset_of_fc_on_success (csp : CSP) (newVar : Option Nat)
    (st : State) (hwf : WFdom csp st) (r : Bool × List (Nat × Int) × State)
    (hg : Propagators1.prop_GAC csp newVar st = some r) (ht : r.1 = true) :
    ∀ pr ∈ (Propagators1.prop_FC csp newVar st).2.1, pr ∈ r.2.1 := by
  obtain ⟨r', hr', hs', _, hcons'⟩ := prop_GAC1_run csp newVar st hwf
  rw [hg] at hr'
  rw [Option.some.injEq] at hr'
  subst hr'
  have hextG : Ext st r.2.1 r.2.2 := ⟨hs'.2.2.1, hs'.2.2.2⟩
  have hcons := hcons' ht
  rcases hres : Propagators1.prop_FC csp newVar st with ⟨b, p1, s1⟩
  intro pr hpr
  cases newVar with
  | none =>
    exact fcCons_sub hwf hextG (get_all_cons csp) st [] (ext_refl st)
      (fun i hi => mem_get_all_cons.mp hi) (fun i hi => hcons i hi)
      (by simp) b p1 s1 hres pr hpr
  | some v =>
    exact fcCons_sub hwf hextG (get_cons_with_var csp v) st [] (ext_refl st)
      (fun i hi => (mem_get_cons_with_var.mp hi).1) (fun i hi => hcons i hi)
      (by simp) b p1 s1 hres pr hpr

/-- Witness for C9 at the concrete satisfiable instance, where the GAC
    call succeeds with pruning list [(1, 3)] and the FC call prunes the
    same pair. -/
theorem C9_gac_superset_of_fc_on_success_witness :
    ((1 : Nat), (3 : Int)) ∈
      ((true, [((1 : Nat), (3 : Int))], prune_value exCSt 1 3) :
        Bool × List (Nat × Int) × State).2.1 :=
  C9_gac_superset_of_fc_on_success exC none exCSt (by decide)
    (true, [(1, 3)], prune_value exCSt 1 3) rfl rfl (1, 3) (by decide)

/-- C7: for every propagator (BT, FC, GAC) of either source file and every
    single call on a well-formed state, the returned pruning list holds each
    (variable, value) pair at most once, a value is only pruned when present
    in the current domain of its variable, assignments are untouched, and
    the final domains are exactly the entry domains minus the returned
    pairs, so the list records exactly the prunings performed by the call. -/
theorem C7_pruning_record_sound (csp : CSP) (newVar : Option Nat) (st : State)
    (hwf : WFdom csp st) :
    PruneSound st (Propagators.prop_BT csp newVar st) ∧
    PruneSound st (Propagators1.prop_BT csp newVar st) ∧
    PruneSound st (Propagators.prop_FC csp newVar st) ∧
    PruneSound st (Propagators1.prop_FC csp newVar st) ∧
    (∀ r, Propagators.prop_GAC csp newVar st = some r → PruneSound st r) ∧
    (∀ r, Propagators1.prop_GAC csp newVar st = some r → PruneSound st r) := by
  refine ⟨prop_BT_sound csp newVar st, prop_BT1_sound csp newVar st,
    prop_FCP_sound csp newVar st hwf, prop_FC1_sound csp newVar st hwf, ?_, ?_⟩
  · intro r hr
    obtain ⟨r', hr', _, hs, _⟩ := prop_GACP_run csp newVar st hwf
    rw [hr] at hr'
    rw [Option.some.injEq] at hr'
    rw [hr']
    exact hs
  · intro r hr
    obtain ⟨r', hr', hs, _, _⟩ := prop_GAC1_run csp newVar st hwf
    rw [hr] at hr'
    rw [Option.some.injEq] at hr'
    rw [hr']
    exact hs

/-- Witness for C7 at the concrete satisfiable instance. -/
theorem C7_pruning_record_sound_witness :
    PruneSound exCSt (Propagators1.prop_FC exC none exCSt) :=
  (C7_pruning_record_sound exC none exCSt (by decide)).2.2.2.1

/-- C10: on every well-formed finite state the fuel-indexed GAC work loop
    of either source file runs to completion (the fuel `gac_fuel`, the loop
    measure, is proved sufficient), and the number of prunings in one call
    is bounded by the total size of the current domains of the scope
    variables. -/
theorem C10_gac_terminates (csp : CSP) (newVar : Option Nat) (st : State)
    (hwf : WFdom csp st) :
    (Propagators.prop_GAC csp newVar st).isSome ∧
    (Propagators1.prop_GAC csp newVar st).isSome ∧
    (∀ r, Propagators.prop_GAC csp newVar st = some r →
      r.2.1.length ≤ dom_sum csp st) ∧
    (∀ r, Propagators1.prop_GAC csp newVar st = some r →
      r.2.1.length ≤ dom_sum csp st) := by
  obtain ⟨rP, hrP, _, hsP, hvP⟩ := prop_GACP_run csp newVar st hwf
  obtain ⟨r1, hr1, hs1, hv1, _⟩ := prop_GAC1_run csp newVar st hwf
  refine ⟨by rw [hrP]; rfl, by rw [hr1]; rfl, ?_, ?_⟩
  · intro r hr
    rw [hr] at hrP
    rw [Option.some.injEq] at hrP
    subst hrP
    exact pairs_length_le st.dom (scope_vars csp) r.2.1 hsP.1
      (fun pr hpr => ⟨hvP pr hpr, hsP.2.1 pr hpr⟩) hwf
  · intro r hr
    rw [hr] at hr1
    rw [Option.some.injEq] at hr1
    subst hr1
    exact pairs_length_le st.dom (scope_vars csp) r.2.1 hs1.1
      (fun pr hpr => ⟨hv1 pr hpr, hs1.2.1 pr hpr⟩) hwf

/-- Witness for C10 at the concrete satisfiable instance. -/
theorem C10_gac_terminates_witness :
    (Propagators.prop_GAC exC none exCSt).isSome ∧
    (Propagators1.prop_GAC exC none exCSt).isSome ∧
    (∀ r, Propagators.prop_GAC exC none exCSt = some r →
      r.2.1.length ≤ dom_sum exC exCSt) ∧
    (∀ r, Propagators1.prop_GAC exC none exCSt = some r →
      r.2.1.length ≤ dom_sum exC exCSt) :=
  C10_gac_terminates exC none exCSt (by decide)

end CSPCore
